import Mathlib

/-!
# DA: a dynamic array of `int` (src/da.h, src/da.c)

A shallow embedding of the C library.

* `size_t` is a 64-bit unsigned integer: a `Nat` below `SIZE_MOD`, every
  arithmetic operation reduced modulo `SIZE_MOD` (`szAdd`, `szSub`).
* `int` is a 32-bit signed integer.  Values of type `int` are `Int`s; the
  conversion `int → size_t` that C performs in a mixed comparison is `toSizeT`
  and the conversion `size_t → int` is `toCInt`.  Arithmetic on `int` (`i++`,
  `i--`, `count++`) is exact: signed overflow is undefined in C, and the
  counters stay in range whenever the capacity is at most `INT_MAX`, which the
  theorems assume.
* The buffer `heap` is the list of the slots of the allocation.  A read or a
  write outside the allocation is undefined behaviour in C and is the result
  `Run.oob` here.  Slots that C leaves indeterminate (fresh from `malloc` or
  from a growing `realloc`) take their value from an arbitrary function
  `junk`, over which every theorem quantifies.
* A C loop is a function recursive on a fuel counter that tests the loop
  condition of the source at every iteration; running out of fuel is the
  result `Run.fuel`, which is distinct from every result of the C code.
-/

/-! ## Machine integers -/

/-- Number of values of `size_t`: `2 ^ 64`. -/
def SIZE_MOD : Nat := 18446744073709551616

/-- Number of values of `int`: `2 ^ 32`. -/
def INT_MOD : Nat := 4294967296

/-- Largest `int`: `2 ^ 31 - 1`. -/
def INT_MAX : Nat := 2147483647

/-- Conversion `int → size_t` (C11 6.3.1.3: reduction modulo `SIZE_MOD`). -/
def toSizeT (i : Int) : Nat := (i % (SIZE_MOD : Int)).toNat

/-- Conversion `size_t → int` (two's complement wrap-around). -/
def toCInt (n : Nat) : Int :=
  if n % INT_MOD ≤ INT_MAX then ((n % INT_MOD : Nat) : Int)
  else ((n % INT_MOD : Nat) : Int) - (INT_MOD : Int)

/-- Addition on `size_t`. -/
def szAdd (a b : Nat) : Nat := (a + b) % SIZE_MOD

/-- Subtraction on `size_t`. -/
def szSub (a b : Nat) : Nat := (a % SIZE_MOD + SIZE_MOD - b % SIZE_MOD) % SIZE_MOD

/-- Number of `int` slots in an allocation of `n * sizeof(int)` bytes, the
product computed on `size_t`. -/
def intSlots (n : Nat) : Nat := (n * 4) % SIZE_MOD / 4

/-! ## Memory -/

/-- Outcome of a run: a result, an access outside the allocation (undefined
behaviour in C), or the fuel of the model running out. -/
inductive Run (α : Type) where
  | ok (a : α)
  | oob
  | fuel
  deriving DecidableEq, Repr

/-- Sequencing of runs: a failure ends the run. -/
def Run.bind {α β : Type} (x : Run α) (f : α → Run β) : Run β :=
  match x with
  | .ok a => f a
  | .oob => .oob
  | .fuel => .fuel

instance : Monad Run where
  pure := Run.ok
  bind := Run.bind

/-- Read of `heap[i]`, `i` a `size_t`. -/
def rd (heap : List Int) (i : Nat) : Run Int :=
  match heap.get? i with
  | some v => .ok v
  | none => .oob

/-- Write `heap[i] = v`, `i` a `size_t`. -/
def wr (heap : List Int) (i : Nat) (v : Int) : Run (List Int) :=
  if i < heap.length then .ok (heap.set i v) else .oob

/-- Read of `heap[i]`, `i` an `int`. -/
def rdI (heap : List Int) (i : Int) : Run Int :=
  if i < 0 then .oob else rd heap i.toNat

/-- Write `heap[i] = v`, `i` an `int`. -/
def wrI (heap : List Int) (i : Int) (v : Int) : Run (List Int) :=
  if i < 0 then .oob else wr heap i.toNat v

/-- Result of `malloc(n * sizeof(int))`: fresh slots of indeterminate content. -/
def malloc (junk : Nat → Int) (n : Nat) : List Int :=
  (List.range (intSlots n)).map junk

/-- Result of `realloc(heap, n * sizeof(int))`: the old slots are kept up to the
smaller of the two sizes, the new slots are indeterminate. -/
def realloc (junk : Nat → Int) (heap : List Int) (n : Nat) : List Int :=
  heap.take (intSlots n) ++
    (List.range' heap.length (intSlots n - heap.length)).map junk

/-! ## The container -/

/-- The structure `DA` of da.h. -/
structure DA where
  heap : List Int
  size : Nat
  inc : Nat
  len : Nat
  deriving DecidableEq, Repr

/-- Function `DA_init`: allocate `size` slots; `size` is also the growth step.
The previous content of the structure is overwritten. -/
def DA_init (junk : Nat → Int) (_list : DA) (size : Nat) : DA :=
  { heap := malloc junk size, size := size, inc := size, len := 0 }

/-- Function `DA_deinit`: release the buffer and zero the fields. -/
def DA_deinit (_list : DA) : DA :=
  { heap := [], size := 0, inc := 0, len := 0 }

/-- Function `DA_check`: grow by `inc` when full, shrink by `inc` when
`len + inc < size`. -/
def DA_check (junk : Nat → Int) (list : DA) : DA :=
  if list.size = list.len then
    { list with
      size := szAdd list.size list.inc
      heap := realloc junk list.heap (szAdd list.size list.inc) }
  else if szAdd list.len list.inc < list.size then
    { list with
      size := szSub list.size list.inc
      heap := realloc junk list.heap (szSub list.size list.inc) }
  else list

/-- Function `DA_outofbounds` of da.h: `list->len < index`, the `int` index
converted to `size_t` by the comparison. -/
def DA_outofbounds (list : DA) (index : Int) : Bool :=
  decide (list.len < toSizeT index)

/-- Function `DA_len` of da.h. -/
def DA_len (list : DA) : Int := toCInt list.len

/-- Function `DA_append`: rebalance, write at `len`, increment `len`, return `len-1`. -/
def DA_append (junk : Nat → Int) (list : DA) (element : Int) :
    Run (DA × Int) := do
  let list := DA_check junk list
  let heap ← wr list.heap list.len element
  let list := { list with heap := heap, len := szAdd list.len 1 }
  pure (list, toCInt (szSub list.len 1))

/-- Function `DA_get`: `-1` when `DA_outofbounds`, else `heap[index]`. -/
def DA_get (list : DA) (index : Int) : Run Int :=
  if DA_outofbounds list index then pure (-1) else rdI list.heap index

/-- The loop of `DA_insert`:
`for (int i = list->len; i > index; i--) heap[i] = heap[i-1];`. -/
def DA_insert_loop : Nat → List Int → Int → Int → Run (List Int)
  | 0, _, _, _ => .fuel
  | fuel + 1, heap, i, index =>
    if i > index then do
      let v ← rdI heap (i - 1)
      let heap ← wrI heap i v
      DA_insert_loop fuel heap (i - 1) index
    else pure heap

/-- Function `DA_insert`: reject by `DA_outofbounds`, else `len++`, `DA_check`,
shift the slots from `index` one to the right, write at `index`, return 0. -/
def DA_insert (junk : Nat → Int) (list : DA) (index : Int) (element : Int) :
    Run (DA × Int) :=
  if DA_outofbounds list index then pure (list, -1) else do
    let list := { list with len := szAdd list.len 1 }
    let list := DA_check junk list
    let heap ← DA_insert_loop (list.len + 1) list.heap (toCInt list.len) index
    let heap ← wrI heap index element
    pure ({ list with heap := heap }, 0)

/-- The loop of `DA_delete`:
`for (int i = index; i < list->len; i++) heap[i] = heap[i+1];`. -/
def DA_delete_loop : Nat → List Int → Nat → Int → Run (List Int)
  | 0, _, _, _ => .fuel
  | fuel + 1, heap, len, i =>
    if toSizeT i < len then do
      let v ← rdI heap (i + 1)
      let heap ← wrI heap i v
      DA_delete_loop fuel heap len (i + 1)
    else pure heap

/-- Function `DA_delete`: reject by `DA_outofbounds`, else shift the slots
after `index` one to the left, `len--`, `DA_check`, return 0. -/
def DA_delete (junk : Nat → Int) (list : DA) (index : Int) :
    Run (DA × Int) :=
  if DA_outofbounds list index then pure (list, -1) else do
    let heap ← DA_delete_loop (list.len + 1) list.heap list.len index
    let list := { list with heap := heap, len := szSub list.len 1 }
    let list := DA_check junk list
    pure (list, 0)

/-- The loop of `DA_remove`:
`for (int i = 0; i < list->len; i++) if (heap[i] == element) { DA_delete(list, i); i--; }`. -/
def DA_remove_loop (junk : Nat → Int) (element : Int) :
    Nat → DA → Int → Run DA
  | 0, _, _ => .fuel
  | fuel + 1, list, i =>
    if toSizeT i < list.len then do
      let v ← rdI list.heap i
      if v = element then do
        let (list, _) ← DA_delete junk list i
        let i := i - 1
        DA_remove_loop junk element fuel list (i + 1)
      else DA_remove_loop junk element fuel list (i + 1)
    else pure list

/-- Function `DA_remove`: delete every occurrence of `element`. -/
def DA_remove (junk : Nat → Int) (list : DA) (element : Int) : Run DA :=
  DA_remove_loop junk element (list.len + 1) list 0

/-- Function `DA_pop`: -1 when `len` is 0, else `DA_get(list, --len)`, then
`DA_check`. -/
def DA_pop (junk : Nat → Int) (list : DA) : Run (DA × Int) :=
  if list.len = 0 then pure (list, -1) else do
    let list := { list with len := szSub list.len 1 }
    let ret ← DA_get list (toCInt list.len)
    let list := DA_check junk list
    pure (list, ret)

/-- The loop of `DA_count`:
`for (int i = 0; i < list->len; i++) if (heap[i] == element) count++;`. -/
def DA_count_loop (list : DA) (element : Int) : Nat → Int → Int → Run Int
  | 0, _, _ => .fuel
  | fuel + 1, i, count =>
    if toSizeT i < list.len then do
      let v ← rdI list.heap i
      if v = element then DA_count_loop list element fuel (i + 1) (count + 1)
      else DA_count_loop list element fuel (i + 1) count
    else pure count

/-- Function `DA_count`: the number of slots at `[0, len)` equal to `element`. -/
def DA_count (list : DA) (element : Int) : Run Int :=
  DA_count_loop list element (list.len + 1) 0 0

/-- The loop of `DA_copy` and of `DA_extend`:
`for (int i = 0; i < src->len; i++) DA_append(dst, src->heap[i]);`. -/
def DA_extend_loop (junk : Nat → Int) (src : DA) : Nat → DA → Int → Run DA
  | 0, _, _ => .fuel
  | fuel + 1, dst, i =>
    if toSizeT i < src.len then do
      let v ← rdI src.heap i
      let (dst, _) ← DA_append junk dst v
      DA_extend_loop junk src fuel dst (i + 1)
    else pure dst

/-- Function `DA_copy`, of `list1` into a distinct `list2`; the result is `list2`. -/
def DA_copy (junk : Nat → Int) (list1 list2 : DA) : Run DA :=
  let list2 := if list2.len ≠ 0 then DA_deinit list2 else list2
  let list2 := DA_init junk list2 list1.size
  DA_extend_loop junk list1 (list1.len + 1) list2 0

/-- The loop of `DA_compare`:
`for (int i = 0; i < list1->len; i++) if (heap1[i] != heap2[i]) return 0;`. -/
def DA_compare_loop (list1 list2 : DA) : Nat → Int → Run Int
  | 0, _ => .fuel
  | fuel + 1, i =>
    if toSizeT i < list1.len then do
      let a ← rdI list1.heap i
      let b ← rdI list2.heap i
      if a ≠ b then pure 0 else DA_compare_loop list1 list2 fuel (i + 1)
    else pure 1

/-- Function `DA_compare`: 0 when the lengths differ or some slot at `[0, len)`
differs, else 1. -/
def DA_compare (list1 list2 : DA) : Run Int :=
  if list1.len ≠ list2.len then pure 0
  else DA_compare_loop list1 list2 (list1.len + 1) 0

/-- The loop of `DA_reverse`: swap `heap[i]` and `heap[len-1-i]` while
`i < halfway`; the index `len-1-i` is computed on `size_t`. -/
def DA_reverse_loop (len : Nat) (halfway : Int) :
    Nat → List Int → Int → Run (List Int)
  | 0, _, _ => .fuel
  | fuel + 1, heap, i =>
    if i < halfway then do
      let holder ← rdI heap i
      let v ← rd heap (szSub (szSub len 1) (toSizeT i))
      let heap ← wrI heap i v
      let heap ← wr heap (szSub (szSub len 1) (toSizeT i)) holder
      DA_reverse_loop len halfway fuel heap (i + 1)
    else pure heap

/-- Function `DA_reverse`: swap the slots `i` and `len-1-i` for `i` below `len/2`. -/
def DA_reverse (list : DA) : Run DA := do
  let halfway := toCInt (list.len / 2)
  let heap ← DA_reverse_loop list.len halfway (list.len + 1) list.heap 0
  pure { list with heap := heap }

/-- The second half of the body of the loop of `DA_sort`: compare `heap[i]`
with `heap[i-1]`, swap them when out of order (`r = 1; ...; i--`), then `i++`.
The result is the new `heap`, `i` and `r`. -/
def DA_sort_body (heap : List Int) (i : Int) (r : Bool) :
    Run (List Int × Int × Bool) := do
  let a ← rdI heap i
  let b ← rdI heap (i - 1)
  if a < b then do
    let r := true
    let holder := a
    let heap ← wrI heap i b
    let heap ← wrI heap (i - 1) holder
    let i := i - 1
    pure (heap, i + 1, r)
  else pure (heap, i + 1, r)

/-- The loop `for (;;)` of `DA_sort`.  The test `i > list->len-1` is made on
`size_t`: `len-1` wraps around when `len` is 0. -/
def DA_sort_loop (len : Nat) : Nat → List Int → Int → Bool → Run (List Int)
  | 0, _, _, _ => .fuel
  | fuel + 1, heap, i, r =>
    if toSizeT i > szSub len 1 then
      if r then do
        let (heap, i, r) ← DA_sort_body heap 1 false
        DA_sort_loop len fuel heap i r
      else pure heap
    else do
      let (heap, i, r) ← DA_sort_body heap i r
      DA_sort_loop len fuel heap i r

/-- Function `DA_sort`, run for at most `fuel` iterations of its loop. -/
def DA_sort (fuel : Nat) (list : DA) : Run DA := do
  let heap ← DA_sort_loop list.len fuel list.heap 1 false
  pure { list with heap := heap }

/-- Function `DA_sortback`: `DA_sort` then `DA_reverse`. -/
def DA_sortback (fuel : Nat) (list : DA) : Run DA := do
  let list ← DA_sort fuel list
  DA_reverse list

/-- Function `DA_extend`, of `list1` by a distinct `list2`; the result is `list1`. -/
def DA_extend (junk : Nat → Int) (list1 list2 : DA) : Run DA :=
  DA_extend_loop junk list2 (list2.len + 1) list1 0

/-- Function `DA_merge`; the result is `(list1, list2)`. -/
def DA_merge (junk : Nat → Int) (list1 list2 : DA) : Run (DA × DA) := do
  let list1 ← DA_extend junk list1 list2
  pure (list1, DA_deinit list2)

/-- The loop of `DA_split`:
`while (index < list1->len) { DA_append(list2, heap1[index]); DA_delete(list1, index); }`. -/
def DA_split_loop (junk : Nat → Int) (index : Int) :
    Nat → DA → DA → Run (DA × DA)
  | 0, _, _ => .fuel
  | fuel + 1, list1, list2 =>
    if toSizeT index < list1.len then do
      let v ← rdI list1.heap index
      let (list2, _) ← DA_append junk list2 v
      let (list1, _) ← DA_delete junk list1 index
      DA_split_loop junk index fuel list1 list2
    else pure (list1, list2)

/-- Function `DA_split`, `list2` distinct from `list1`; the result is `(list1, list2)`. -/
def DA_split (junk : Nat → Int) (list1 list2 : DA) (index : Int) :
    Run (DA × DA) :=
  let list2 := DA_deinit list2
  let index := if toSizeT index > list1.len then toCInt list1.len else index
  let list2 := DA_init junk list2 (szSub list1.len (toSizeT index))
  DA_split_loop junk index (list1.len + 1) list1 list2

/-! ## Specification vocabulary -/

/-- The live elements: the slots at `[0, len)`. -/
def elems (list : DA) : List Int := list.heap.take list.len

/-- A well-formed container: the buffer has `size` slots, `len ≤ size`, the
growth step is at least 1, and the capacity and the growth step are within the
range of an `int`. -/
def WF (list : DA) : Prop :=
  list.heap.length = list.size ∧ list.len ≤ list.size ∧ 1 ≤ list.inc ∧
    list.size ≤ INT_MAX ∧ list.inc ≤ INT_MAX

instance (list : DA) : Decidable (WF list) := by
  unfold WF; infer_instance

/-- Appending the values of a list in order, collecting the returned indices. -/
def appendAll (junk : Nat → Int) : DA → List Int → Run (DA × List Int)
  | list, [] => pure (list, [])
  | list, v :: vs => do
    let (list, k) ← DA_append junk list v
    let (list, ks) ← appendAll junk list vs
    pure (list, k :: ks)

/-- Number of inversions of a list: the pairs of positions whose values are in
decreasing order. -/
def inv : List Int → Nat
  | [] => 0
  | a :: l => l.countP (fun b => decide (b < a)) + inv l

/-- A number of iterations that suffices for the loop of `DA_sort` on `len`
elements. -/
def sortFuel (len : Nat) : Nat := len * len * (2 * (len + 1)) + 2 * (len + 1) + 1

/-- The slots at `[0, i)` are in non-decreasing order, pair by pair. -/
def AdjSorted (heap : List Int) (i : Nat) : Prop :=
  ∀ j x y, j + 1 < i → heap[j]? = some x → heap[j + 1]? = some y → x ≤ y

/-- The index at which `DA_split` cuts a source of length `len`: the given
index, or `len` when the index is above `len` or negative (a negative `int`
converts to a `size_t` above every length). -/
def splitPoint (len : Nat) (index : Int) : Nat :=
  if index < 0 ∨ (len : Int) < index then len else index.toNat

/-- A call of one of the mutating operations, with its arguments (`DA_sort`
with the fuel of its loop). -/
inductive Op where
  | append (element : Int)
  | insert (index element : Int)
  | delete (index : Int)
  | remove (element : Int)
  | pop
  | reverse
  | sort (fuel : Nat)
  deriving DecidableEq, Repr

/-- Effect of one call on the container; the value the call returns is dropped. -/
def applyOp (junk : Nat → Int) (list : DA) : Op → Run DA
  | .append element => do
    let (list, _) ← DA_append junk list element
    pure list
  | .insert index element => do
    let (list, _) ← DA_insert junk list index element
    pure list
  | .delete index => do
    let (list, _) ← DA_delete junk list index
    pure list
  | .remove element => DA_remove junk list element
  | .pop => do
    let (list, _) ← DA_pop junk list
    pure list
  | .reverse => DA_reverse list
  | .sort fuel => DA_sort fuel list

/-- Effect of a finite sequence of calls, in order. -/
def runOps (junk : Nat → Int) : DA → List Op → Run DA
  | list, [] => pure list
  | list, op :: ops => do
    let list ← applyOp junk list op
    runOps junk list ops

/-! ## Machine integers and memory: basic facts -/

@[simp] theorem Run.pure_eq {α : Type} (a : α) : (pure a : Run α) = Run.ok a := rfl

@[simp] theorem Run.ok_bind {α β : Type} (a : α) (f : α → Run β) :
    (Run.ok a >>= f) = f a := rfl

@[simp] theorem Run.oob_bind {α β : Type} (f : α → Run β) :
    ((Run.oob : Run α) >>= f) = Run.oob := rfl

@[simp] theorem Run.fuel_bind {α β : Type} (f : α → Run β) :
    ((Run.fuel : Run α) >>= f) = Run.fuel := rfl

theorem szAdd_eq (a b : Nat) (h : a + b < SIZE_MOD) : szAdd a b = a + b := by
  unfold szAdd; exact Nat.mod_eq_of_lt h

theorem szSub_eq (a b : Nat) (hb : b ≤ a) (ha : a < SIZE_MOD) : szSub a b = a - b := by
  unfold szSub SIZE_MOD at *; omega

theorem toSizeT_ofNat (n : Nat) (h : n < SIZE_MOD) : toSizeT (n : Int) = n := by
  unfold toSizeT SIZE_MOD at *; omega

theorem toSizeT_neg (i : Int) (h : i < 0) (hl : -(INT_MAX : Int) - 1 ≤ i) :
    SIZE_MOD - INT_MAX - 1 ≤ toSizeT i := by
  unfold toSizeT SIZE_MOD INT_MAX at *; omega

theorem toCInt_eq (n : Nat) (h : n ≤ INT_MAX) : toCInt n = (n : Int) := by
  unfold toCInt INT_MOD INT_MAX at *
  have : n % 4294967296 = n := by omega
  simp [this, h]

theorem intSlots_eq (n : Nat) (h : n ≤ 2 * INT_MAX) : intSlots n = n := by
  unfold intSlots SIZE_MOD INT_MAX at *; omega

theorem rd_eq (heap : List Int) (i : Nat) (h : i < heap.length) :
    rd heap i = .ok (heap.get ⟨i, h⟩) := by
  unfold rd; rw [List.get?_eq_get h]

theorem rdI_ofNat (heap : List Int) (i : Nat) : rdI heap (i : Int) = rd heap i := by
  unfold rdI; simp

theorem wrI_ofNat (heap : List Int) (i : Nat) (v : Int) :
    wrI heap (i : Int) v = wr heap i v := by
  unfold wrI; simp

theorem wr_eq (heap : List Int) (i : Nat) (v : Int) (h : i < heap.length) :
    wr heap i v = .ok (heap.set i v) := by
  unfold wr; simp [h]

theorem realloc_length (junk : Nat → Int) (heap : List Int) (n : Nat)
    (h : n ≤ 2 * INT_MAX) : (realloc junk heap n).length = n := by
  unfold realloc; rw [intSlots_eq n h]; simp; omega

theorem realloc_take (junk : Nat → Int) (heap : List Int) (n k : Nat)
    (h : n ≤ 2 * INT_MAX) (hk : k ≤ n) (hk2 : k ≤ heap.length) :
    (realloc junk heap n).take k = heap.take k := by
  unfold realloc; rw [intSlots_eq n h]
  rw [List.take_append_of_le_length (by simp; omega), List.take_take]
  congr 1; omega

theorem take_succ_set (l : List Int) (n : Nat) (x : Int) (h : n < l.length) :
    (l.set n x).take (n + 1) = l.take n ++ [x] := by
  induction l generalizing n with
  | nil => simp at h
  | cons a t ih =>
    cases n with
    | zero => simp
    | succ m =>
      simp only [List.length_cons] at h
      simp [ih m (by omega)]

/-! ## `DA_check` -/

theorem DA_check_len (junk : Nat → Int) (list : DA) :
    (DA_check junk list).len = list.len := by
  unfold DA_check; split_ifs <;> rfl

theorem DA_check_inc (junk : Nat → Int) (list : DA) :
    (DA_check junk list).inc = list.inc := by
  unfold DA_check; split_ifs <;> rfl

/-- The capacity after `DA_check`, when nothing overflows. -/
theorem DA_check_size (junk : Nat → Int) (list : DA)
    (hs : list.size ≤ INT_MAX) (hi : list.inc ≤ INT_MAX) (hl : list.len ≤ INT_MAX + 1) :
    (DA_check junk list).size =
      if list.size = list.len then list.size + list.inc
      else if list.len + list.inc < list.size then list.size - list.inc
      else list.size := by
  have h1 : szAdd list.size list.inc = list.size + list.inc :=
    szAdd_eq _ _ (by unfold SIZE_MOD INT_MAX at *; omega)
  have h2 : szAdd list.len list.inc = list.len + list.inc :=
    szAdd_eq _ _ (by unfold SIZE_MOD INT_MAX at *; omega)
  unfold DA_check
  rw [h1, h2]
  by_cases c1 : list.size = list.len
  · simp [c1]
  · by_cases c2 : list.len + list.inc < list.size
    · simp only [c1, c2, if_true, if_false]
      exact szSub_eq _ _ (by omega) (by unfold SIZE_MOD INT_MAX at *; omega)
    · simp [c1, c2]

theorem DA_check_heap_length (junk : Nat → Int) (list : DA)
    (hh : list.heap.length = list.size)
    (hs : list.size ≤ INT_MAX) (hi : list.inc ≤ INT_MAX) (hl : list.len ≤ INT_MAX + 1) :
    (DA_check junk list).heap.length = (DA_check junk list).size := by
  have h1 : szAdd list.size list.inc = list.size + list.inc :=
    szAdd_eq _ _ (by unfold SIZE_MOD INT_MAX at *; omega)
  have h2 : szAdd list.len list.inc = list.len + list.inc :=
    szAdd_eq _ _ (by unfold SIZE_MOD INT_MAX at *; omega)
  unfold DA_check
  rw [h1, h2]
  by_cases c1 : list.size = list.len
  · simp only [c1, if_true]
    exact realloc_length _ _ _ (by unfold INT_MAX at *; omega)
  · by_cases c2 : list.len + list.inc < list.size
    · simp only [c1, c2, if_true, if_false]
      have h3 : szSub list.size list.inc = list.size - list.inc :=
        szSub_eq _ _ (by omega) (by unfold SIZE_MOD INT_MAX at *; omega)
      rw [h3]
      exact realloc_length _ _ _ (by unfold INT_MAX at *; omega)
    · simp [c1, c2, hh]

/-- Function `DA_check` keeps every slot at an index below the old and the new
capacity. -/
theorem DA_check_take (junk : Nat → Int) (list : DA) (k : Nat)
    (hh : list.heap.length = list.size)
    (hs : list.size ≤ INT_MAX) (hi : list.inc ≤ INT_MAX) (hl : list.len ≤ INT_MAX + 1)
    (hk : k ≤ list.size) (hk2 : k ≤ (DA_check junk list).size) :
    (DA_check junk list).heap.take k = list.heap.take k := by
  have hsz := DA_check_size junk list hs hi hl
  rw [hsz] at hk2
  have h1 : szAdd list.size list.inc = list.size + list.inc :=
    szAdd_eq _ _ (by unfold SIZE_MOD INT_MAX at *; omega)
  have h2 : szAdd list.len list.inc = list.len + list.inc :=
    szAdd_eq _ _ (by unfold SIZE_MOD INT_MAX at *; omega)
  unfold DA_check
  rw [h1, h2]
  by_cases c1 : list.size = list.len
  · simp only [c1, if_true]
    exact realloc_take _ _ _ _ (by unfold INT_MAX at *; omega) (by omega) (by omega)
  · by_cases c2 : list.len + list.inc < list.size
    · simp only [c1, c2, if_true, if_false] at hk2 ⊢
      have h3 : szSub list.size list.inc = list.size - list.inc :=
        szSub_eq _ _ (by omega) (by unfold SIZE_MOD INT_MAX at *; omega)
      rw [h3]
      exact realloc_take _ _ _ _ (by unfold INT_MAX at *; omega) hk2 (by omega)
    · simp [c1, c2]

/-! ## `DA_append` -/

/-- Function `DA_append` on a well-formed container: it returns the old length, the
live elements gain the value at the end, and the buffer still holds them. -/
theorem DA_append_ok (junk : Nat → Int) (list : DA) (x : Int) (h : WF list) :
    ∃ list2, DA_append junk list x = .ok (list2, (list.len : Int)) ∧
      elems list2 = elems list ++ [x] ∧ list2.len = list.len + 1 ∧
      list2.inc = list.inc ∧ list2.heap.length = list2.size ∧
      list2.len ≤ list2.size ∧
      list2.size = (if list.size = list.len then list.size + list.inc
        else if list.len + list.inc < list.size then list.size - list.inc
        else list.size) := by
  obtain ⟨hh, hl, hi1, hs, hi⟩ := h
  have hl2 : list.len ≤ INT_MAX + 1 := by omega
  have hsz := DA_check_size junk list hs hi hl2
  have hhl := DA_check_heap_length junk list hh hs hi hl2
  have hlen := DA_check_len junk list
  have hinc := DA_check_inc junk list
  have hlt : list.len < (DA_check junk list).size := by
    rw [hsz]; split_ifs <;> omega
  have htk := DA_check_take junk list list.len hh hs hi hl2 hl (by omega)
  have ha : szAdd list.len 1 = list.len + 1 :=
    szAdd_eq _ _ (by unfold SIZE_MOD INT_MAX at *; omega)
  have hb : szSub (list.len + 1) 1 = list.len := by
    rw [szSub_eq _ _ (by omega) (by unfold SIZE_MOD INT_MAX at *; omega)]; omega
  refine ⟨{ DA_check junk list with
      heap := (DA_check junk list).heap.set list.len x, len := list.len + 1 }, ?_, ?_, rfl,
    hinc, ?_, ?_, hsz⟩
  · unfold DA_append
    simp only [hlen, ha, hb]
    rw [wr_eq _ _ _ (by omega)]
    simp [toCInt_eq _ (by omega : list.len ≤ INT_MAX)]
  · unfold elems
    simp only
    rw [take_succ_set _ _ _ (by omega), htk]
  · simp [hhl]
  · simp; omega

/-- A chain of appends from a state whose capacity is within one growth step
of its length: the calls return the consecutive indices, and the values are
added at the end in order. -/
theorem appendAll_ok (junk : Nat → Int) (s : Nat) (hs : 1 ≤ s) :
    ∀ (vs : List Int) (list : DA), list.heap.length = list.size → list.len ≤ list.size →
      list.inc = s → list.size ≤ list.len + s → list.len + vs.length + s ≤ INT_MAX + 1 →
      ∃ list2, appendAll junk list vs =
          .ok (list2, (List.range' list.len vs.length).map Int.ofNat) ∧
        elems list2 = elems list ++ vs ∧ list2.len = list.len + vs.length ∧
        list2.len ≤ list2.heap.length := by
  intro vs
  induction vs with
  | nil =>
    intro list hh hl _ _ _
    exact ⟨list, by simp [appendAll], by simp, by simp, by omega⟩
  | cons v vs ih =>
    intro list hh hl hi hsz hb
    simp only [List.length_cons] at hb
    have hwf : WF list := ⟨hh, hl, by omega, by omega, by omega⟩
    obtain ⟨l1, h1, he1, hl1, hi1, hh1, hle1, hs1⟩ := DA_append_ok junk list v hwf
    have hsz1 : l1.size ≤ l1.len + s := by
      rw [hs1, hl1]; split_ifs <;> omega
    obtain ⟨l2, h2, he2, hl2, hle2⟩ :=
      ih l1 hh1 hle1 (by rw [hi1, hi]) hsz1 (by rw [hl1]; omega)
    refine ⟨l2, ?_, ?_, ?_, hle2⟩
    · simp only [appendAll, h1, Run.ok_bind, h2, hl1]
      simp [List.range']
    · rw [he2, he1]; simp
    · rw [hl2, hl1]; simp; omega

/-- Function `DA_get` at a live index of a container whose live elements are inside
the buffer returns the element. -/
theorem DA_get_ok (list : DA) (i : Nat) (hl : list.len ≤ list.heap.length)
    (hb : list.len ≤ INT_MAX + 1) (h : i < (elems list).length) :
    DA_get list (i : Int) = .ok ((elems list).get ⟨i, h⟩) := by
  have hi : i < list.len := by
    unfold elems at h; simp at h; omega
  have ht : toSizeT (i : Int) = i :=
    toSizeT_ofNat _ (by unfold SIZE_MOD INT_MAX at *; omega)
  unfold DA_get DA_outofbounds
  rw [ht, rdI_ofNat, rd_eq _ _ (by omega)]
  have : ¬ list.len < i := by omega
  simp [this, elems]

/-! ## `DA_insert` -/

theorem getElem?_of_take_eq (a b : List Int) (m j : Nat) (h : a.take m = b.take m)
    (hj : j < m) : a[j]? = b[j]? := by
  have := congrArg (fun l => l[j]?) h
  simpa [List.getElem?_take, hj] using this

/-- The shift of `DA_insert` from `i = k + n` down to `k`, inside the buffer:
the slots at `(k, k + n]` receive the former content of `[k, k + n)`, the other
slots are unchanged. -/
theorem DA_insert_loop_ok (k : Nat) :
    ∀ (n fuel : Nat) (heap : List Int), k + n < heap.length → n + 1 ≤ fuel →
      ∃ heap2, DA_insert_loop fuel heap ((k + n : Nat) : Int) (k : Int) = .ok heap2 ∧
        heap2.length = heap.length ∧
        ∀ j, heap2[j]? = if k < j ∧ j ≤ k + n then heap[j - 1]? else heap[j]? := by
  intro n
  induction n with
  | zero =>
    intro fuel heap _ hf
    obtain ⟨f, rfl⟩ : ∃ f, fuel = f + 1 := ⟨fuel - 1, by omega⟩
    refine ⟨heap, ?_, rfl, ?_⟩
    · unfold DA_insert_loop
      simp
    · intro j
      rw [if_neg (by omega)]
  | succ n ih =>
    intro fuel heap hk hf
    obtain ⟨f, rfl⟩ : ∃ f, fuel = f + 1 := ⟨fuel - 1, by omega⟩
    have hlt : k + n < heap.length := by omega
    obtain ⟨heap2, h2, hl2, hp2⟩ := ih f (heap.set (k + n + 1) (heap.get ⟨k + n, hlt⟩))
      (by simp; omega) (by omega)
    refine ⟨heap2, ?_, by simpa using hl2, ?_⟩
    · unfold DA_insert_loop
      have hgt : ((k + (n + 1) : Nat) : Int) > (k : Int) := by omega
      have hsub : ((k + (n + 1) : Nat) : Int) - 1 = ((k + n : Nat) : Int) := by omega
      rw [if_pos hgt, hsub, rdI_ofNat, rd_eq _ _ hlt]
      simp only [Run.ok_bind]
      rw [wrI_ofNat, wr_eq _ _ _ (by omega)]
      simp only [Run.ok_bind]
      exact h2
    · intro j
      rw [hp2 j]
      simp only [List.getElem?_set]
      by_cases c2 : j = k + n + 1
      · subst c2
        have hk2 : k + n + 1 < heap.length := hk
        simp [List.getElem?_eq_getElem hlt, hk2]
        rw [if_pos (by omega)]
      · split_ifs <;> first | rfl | omega

/-- Function `DA_insert` at an accepted index of a well-formed container that is not
full: it returns 0 and the value enters the live elements at the index. -/
theorem DA_insert_ok (junk : Nat → Int) (list : DA) (k : Nat) (v : Int)
    (h : WF list) (hroom : list.len < list.size) (hk : k ≤ list.len) :
    ∃ list2, DA_insert junk list (k : Int) v = .ok (list2, 0) ∧
      list2.len = list.len + 1 ∧ list2.len ≤ list2.heap.length ∧
      elems list2 = (elems list).take k ++ v :: (elems list).drop k := by
  obtain ⟨hh, hl, hi1, hs, hi⟩ := h
  have ht : toSizeT (k : Int) = k :=
    toSizeT_ofNat _ (by unfold SIZE_MOD INT_MAX at *; omega)
  have ha : szAdd list.len 1 = list.len + 1 :=
    szAdd_eq _ _ (by unfold SIZE_MOD INT_MAX at *; omega)
  have hsz := DA_check_size junk { list with len := list.len + 1 } hs hi
    (show list.len + 1 ≤ INT_MAX + 1 by omega)
  have hhl := DA_check_heap_length junk { list with len := list.len + 1 } hh hs hi
    (show list.len + 1 ≤ INT_MAX + 1 by omega)
  have hgt : list.len + 1 < (DA_check junk { list with len := list.len + 1 }).size := by
    rw [hsz]; dsimp only; split_ifs <;> omega
  have htk := DA_check_take junk { list with len := list.len + 1 } list.len hh hs hi
    (show list.len + 1 ≤ INT_MAX + 1 by omega) (show list.len ≤ list.size by omega)
    (by omega)
  have htk2 : List.take list.len (DA_check junk { list with len := list.len + 1 }).heap =
      List.take list.len list.heap := htk
  have hclen : (DA_check junk { list with len := list.len + 1 }).len = list.len + 1 :=
    DA_check_len _ _
  have hlen2 : list.len + 1 < (DA_check junk { list with len := list.len + 1 }).heap.length := by
    rw [hhl]; exact hgt
  obtain ⟨heap2, h2, hl2, hp2⟩ := DA_insert_loop_ok k (list.len + 1 - k)
    ((DA_check junk { list with len := list.len + 1 }).len + 1)
    (DA_check junk { list with len := list.len + 1 }).heap (by omega) (by rw [hclen]; omega)
  have hkn : k + (list.len + 1 - k) = list.len + 1 := by omega
  rw [hkn] at h2 hp2
  refine ⟨{ DA_check junk { list with len := list.len + 1 } with heap := heap2.set k v },
    ?_, hclen, ?_, ?_⟩
  · unfold DA_insert DA_outofbounds
    rw [ht]
    simp only [show ¬ list.len < k by omega, decide_False, ha, Bool.false_eq_true, if_false]
    rw [hclen] at h2 ⊢
    rw [toCInt_eq _ (by omega), h2]
    simp only [Run.ok_bind]
    rw [wrI_ofNat, wr_eq _ _ _ (by omega)]
    rfl
  · simp only [List.length_set]; rw [hl2, hclen]; omega
  · apply List.ext_getElem?
    intro j
    have hold : ∀ m, m < list.len →
        (DA_check junk { list with len := list.len + 1 }).heap[m]? = list.heap[m]? :=
      fun m hm => getElem?_of_take_eq _ _ _ _ htk2 hm
    unfold elems
    simp only [hclen, List.getElem?_take, List.getElem?_set, hp2, List.getElem?_append,
      List.length_take, List.getElem?_cons, List.getElem?_drop]
    have hmin : min k (min list.len list.heap.length) = k := by omega
    rw [hmin]
    by_cases c1 : j < k
    · have := hold j (by omega)
      simp only [c1, if_true]
      rw [if_pos (by omega), if_neg (by omega), if_neg (by omega), this, if_pos (by omega)]
    · by_cases c2 : j = k
      · subst c2
        simp
        omega
      · by_cases c3 : j < list.len + 1
        · have := hold (j - 1) (by omega)
          rw [if_pos c3, if_neg (by omega), if_pos (by omega), this, if_neg c1,
            if_neg (by omega)]
          have e : k + (j - k - 1) = j - 1 := by omega
          rw [e, if_pos (by omega)]
        · rw [if_neg c3, if_neg c1, if_neg (by omega)]
          have e : k + (j - k - 1) = j - 1 := by omega
          rw [e, if_neg (by omega)]

/-- On a well-formed container with `len = size`, `DA_insert` at an accepted
index increments `len` before `DA_check`, so that `size == len` no longer holds
and the buffer is not grown; the shift then reads `heap[len]`, outside the
allocation. -/
theorem DA_insert_full_oob (junk : Nat → Int) (list : DA) (k : Nat) (v : Int)
    (h : WF list) (hfull : list.len = list.size) (hmax : list.size < INT_MAX)
    (hk : k ≤ list.len) :
    DA_insert junk list (k : Int) v = .oob := by
  obtain ⟨hh, hl, hi1, hs, hi⟩ := h
  have ht : toSizeT (k : Int) = k :=
    toSizeT_ofNat _ (by unfold SIZE_MOD INT_MAX at *; omega)
  have ha : szAdd list.len 1 = list.len + 1 :=
    szAdd_eq _ _ (by unfold SIZE_MOD INT_MAX at *; omega)
  have h2 : szAdd (list.len + 1) list.inc = list.len + 1 + list.inc :=
    szAdd_eq _ _ (by unfold SIZE_MOD INT_MAX at *; omega)
  have hc : DA_check junk { list with len := list.len + 1 } =
      { list with len := list.len + 1 } := by
    unfold DA_check
    simp only [h2]
    rw [if_neg (by omega), if_neg (by omega)]
  have hno : ¬ list.len < k := by omega
  have hr : rd list.heap list.len = .oob := by
    unfold rd
    rw [List.get?_eq_none.mpr (by omega)]
  unfold DA_insert DA_outofbounds
  simp only [ht, hno, decide_False, ha, hc]
  rw [toCInt_eq _ (by omega)]
  unfold DA_insert_loop
  have hgt : ((list.len + 1 : Nat) : Int) > (k : Int) := by omega
  have hsub : ((list.len + 1 : Nat) : Int) - 1 = (list.len : Int) := by omega
  simp only [hgt, hsub, rdI_ofNat, hr, if_true]
  rfl

/-- Function `DA_outofbounds` on a well-formed container and an index in the range of
`int`: it holds exactly when the index is above `len` or negative. -/
theorem DA_outofbounds_iff (list : DA) (index : Int) (hl : list.len ≤ INT_MAX)
    (hlo : -(INT_MAX : Int) - 1 ≤ index) (hhi : index ≤ (INT_MAX : Int)) :
    DA_outofbounds list index = true ↔ ((list.len : Int) < index ∨ index < 0) := by
  unfold DA_outofbounds
  rw [decide_eq_true_iff]
  by_cases hn : index < 0
  · have := toSizeT_neg index hn hlo
    unfold SIZE_MOD INT_MAX at *
    constructor
    · intro _; exact Or.inr hn
    · intro _; omega
  · obtain ⟨m, rfl⟩ : ∃ m : Nat, index = (m : Int) := ⟨index.toNat, by omega⟩
    rw [toSizeT_ofNat _ (by unfold SIZE_MOD INT_MAX at *; omega)]
    omega

/-- A rejected `DA_insert` returns -1 and the container as it was. -/
theorem DA_insert_rejected (junk : Nat → Int) (list : DA) (index v : Int)
    (h : DA_outofbounds list index = true) :
    DA_insert junk list index v = .ok (list, -1) := by
  unfold DA_insert
  rw [if_pos h]; rfl

/-- An accepted `DA_insert` that returns, returns 0. -/
theorem DA_insert_accepted_ret (junk : Nat → Int) (list : DA) (index v : Int)
    (h : ¬ DA_outofbounds list index = true) (list2 : DA) (r : Int)
    (hr : DA_insert junk list index v = .ok (list2, r)) : r = 0 := by
  unfold DA_insert at hr
  rw [if_neg h] at hr
  simp only at hr
  generalize DA_insert_loop _ _ _ _ = x at hr
  cases x with
  | ok heap =>
    simp only [Run.ok_bind] at hr
    generalize wrI heap index v = y at hr
    cases y with
    | ok heap2 =>
      simp only [Run.ok_bind, Run.pure_eq, Run.ok.injEq, Prod.mk.injEq] at hr
      exact hr.2.symm
    | oob => simp at hr
    | fuel => simp at hr
  | oob => simp at hr
  | fuel => simp at hr

/-! ## `DA_delete` -/

/-- On a buffer with exactly `len` slots, the shift of `DA_delete` started at an
index below `len` ends by reading `heap[len]`, outside the allocation. -/
theorem DA_delete_loop_full (len : Nat) (hlen : len ≤ INT_MAX) :
    ∀ (n fuel : Nat) (heap : List Int) (i : Nat), heap.length = len → i + n + 1 = len →
      n + 1 ≤ fuel → DA_delete_loop fuel heap len (i : Int) = .oob := by
  intro n
  induction n with
  | zero =>
    intro fuel heap i hh hi hf
    obtain ⟨f, rfl⟩ : ∃ f, fuel = f + 1 := ⟨fuel - 1, by omega⟩
    have ht : toSizeT (i : Int) = i :=
      toSizeT_ofNat _ (by unfold SIZE_MOD INT_MAX at *; omega)
    have hr : rd heap (i + 1) = .oob := by
      unfold rd
      rw [List.get?_eq_none.mpr (by omega)]
    have hc : ((i : Int) + 1) = ((i + 1 : Nat) : Int) := by omega
    unfold DA_delete_loop
    rw [ht, if_pos (by omega), hc, rdI_ofNat, hr]
    rfl
  | succ n ih =>
    intro fuel heap i hh hi hf
    obtain ⟨f, rfl⟩ : ∃ f, fuel = f + 1 := ⟨fuel - 1, by omega⟩
    have ht : toSizeT (i : Int) = i :=
      toSizeT_ofNat _ (by unfold SIZE_MOD INT_MAX at *; omega)
    have hc : ((i : Int) + 1) = ((i + 1 : Nat) : Int) := by omega
    unfold DA_delete_loop
    rw [ht, if_pos (by omega), hc, rdI_ofNat, rd_eq _ _ (by omega)]
    simp only [Run.ok_bind]
    rw [wrI_ofNat, wr_eq _ _ _ (by omega)]
    simp only [Run.ok_bind]
    exact ih f _ (i + 1) (by simp [hh]) (by omega) (by omega)

/-- The shift of `DA_delete` from `i` up to `len - 1`, on a buffer with a slot
at `len`: the slots at `[i, len)` receive the former content of
`[i + 1, len]`, the other slots are unchanged. -/
theorem DA_delete_loop_ok (len : Nat) (hlen : len ≤ INT_MAX) :
    ∀ (n fuel : Nat) (heap : List Int) (i : Nat), len < heap.length → i + n = len →
      n + 1 ≤ fuel →
      ∃ heap2, DA_delete_loop fuel heap len (i : Int) = .ok heap2 ∧
        heap2.length = heap.length ∧
        ∀ j, heap2[j]? = if i ≤ j ∧ j < len then heap[j + 1]? else heap[j]? := by
  intro n
  induction n with
  | zero =>
    intro fuel heap i _ hi hf
    obtain ⟨f, rfl⟩ : ∃ f, fuel = f + 1 := ⟨fuel - 1, by omega⟩
    have ht : toSizeT (i : Int) = i :=
      toSizeT_ofNat _ (by unfold SIZE_MOD INT_MAX at *; omega)
    refine ⟨heap, ?_, rfl, ?_⟩
    · unfold DA_delete_loop
      rw [ht, if_neg (by omega)]; rfl
    · intro j
      rw [if_neg (by omega)]
  | succ n ih =>
    intro fuel heap i hh hi hf
    obtain ⟨f, rfl⟩ : ∃ f, fuel = f + 1 := ⟨fuel - 1, by omega⟩
    have ht : toSizeT (i : Int) = i :=
      toSizeT_ofNat _ (by unfold SIZE_MOD INT_MAX at *; omega)
    have hc : ((i : Int) + 1) = ((i + 1 : Nat) : Int) := by omega
    have hlt : i + 1 < heap.length := by omega
    obtain ⟨heap2, h2, hl2, hp2⟩ := ih f (heap.set i (heap.get ⟨i + 1, hlt⟩)) (i + 1)
      (by simp; omega) (by omega) (by omega)
    refine ⟨heap2, ?_, by simpa using hl2, ?_⟩
    · unfold DA_delete_loop
      rw [ht, if_pos (by omega), hc, rdI_ofNat, rd_eq _ _ hlt]
      simp only [Run.ok_bind]
      rw [wrI_ofNat, wr_eq _ _ _ (by omega)]
      simp only [Run.ok_bind]
      exact h2
    · intro j
      rw [hp2 j]
      simp only [List.getElem?_set]
      by_cases c2 : j = i
      · subst c2
        have hj : j < heap.length := by omega
        simp [List.getElem?_eq_getElem hlt, hj]
        rw [if_pos (by omega)]
      · split_ifs <;> first | rfl | omega

/-- Function `DA_delete` at a live index of a well-formed container that is not full:
it returns 0 and the element at the index leaves the live elements; the
container stays well-formed and not full. -/
theorem DA_delete_ok (junk : Nat → Int) (list : DA) (k : Nat)
    (h : WF list) (hroom : list.len < list.size) (hk : k < list.len) :
    ∃ list2, DA_delete junk list (k : Int) = .ok (list2, 0) ∧
      list2.len = list.len - 1 ∧ WF list2 ∧ list2.len < list2.size ∧
      elems list2 = (elems list).take k ++ (elems list).drop (k + 1) := by
  obtain ⟨hh, hl, hi1, hs, hi⟩ := h
  have ht : toSizeT (k : Int) = k :=
    toSizeT_ofNat _ (by unfold SIZE_MOD INT_MAX at *; omega)
  have hsub : szSub list.len 1 = list.len - 1 :=
    szSub_eq _ _ (by omega) (by unfold SIZE_MOD INT_MAX at *; omega)
  obtain ⟨heap2, h2, hl2, hp2⟩ := DA_delete_loop_ok list.len (by omega) (list.len - k)
    (list.len + 1) list.heap k (by omega) (by omega) (by omega)
  have hsz := DA_check_size junk { list with heap := heap2, len := list.len - 1 } hs hi
    (show list.len - 1 ≤ INT_MAX + 1 by omega)
  have hhl := DA_check_heap_length junk { list with heap := heap2, len := list.len - 1 }
    (show heap2.length = list.size by omega) hs hi
    (show list.len - 1 ≤ INT_MAX + 1 by omega)
  have hgt : list.len - 1 < (DA_check junk { list with heap := heap2, len := list.len - 1 }).size := by
    rw [hsz]; dsimp only; split_ifs <;> omega
  have hle : (DA_check junk { list with heap := heap2, len := list.len - 1 }).size ≤ list.size := by
    rw [hsz]; dsimp only; split_ifs <;> omega
  have htk : List.take (list.len - 1)
      (DA_check junk { list with heap := heap2, len := list.len - 1 }).heap =
      List.take (list.len - 1) heap2 :=
    DA_check_take junk { list with heap := heap2, len := list.len - 1 } (list.len - 1)
      (show heap2.length = list.size by omega) hs hi
      (show list.len - 1 ≤ INT_MAX + 1 by omega) (show list.len - 1 ≤ list.size by omega)
      (by omega)
  have hclen : (DA_check junk { list with heap := heap2, len := list.len - 1 }).len =
      list.len - 1 := DA_check_len _ _
  have hcinc : (DA_check junk { list with heap := heap2, len := list.len - 1 }).inc =
      list.inc := DA_check_inc _ _
  refine ⟨DA_check junk { list with heap := heap2, len := list.len - 1 }, ?_, hclen,
    ⟨hhl, by omega, by omega, by omega, by omega⟩, by omega, ?_⟩
  · unfold DA_delete DA_outofbounds
    rw [ht]
    simp only [show ¬ list.len < k by omega, decide_False, Bool.false_eq_true, if_false]
    rw [h2, hsub]
    rfl
  · unfold elems
    rw [hclen, htk]
    apply List.ext_getElem?
    intro j
    simp only [List.getElem?_take, hp2, List.getElem?_append, List.length_take,
      List.getElem?_drop]
    have hmin : min k (min list.len list.heap.length) = k := by omega
    rw [hmin]
    by_cases c1 : j < k
    · simp only [c1, if_true]
      split_ifs <;> first | rfl | omega
    · have e : k + 1 + (j - k) = j + 1 := by omega
      simp only [c1, if_false, e]
      split_ifs <;> first | rfl | omega

/-- On a well-formed container with `len = size`, `DA_delete` at a live index
reads `heap[len]`, one slot past the allocation. -/
theorem DA_delete_full_oob (junk : Nat → Int) (list : DA) (k : Nat)
    (h : WF list) (hfull : list.len = list.size) (hk : k < list.len) :
    DA_delete junk list (k : Int) = .oob := by
  obtain ⟨hh, hl, hi1, hs, hi⟩ := h
  have ht : toSizeT (k : Int) = k :=
    toSizeT_ofNat _ (by unfold SIZE_MOD INT_MAX at *; omega)
  have hno : ¬ list.len < k := by omega
  unfold DA_delete DA_outofbounds
  simp only [ht, hno, decide_False]
  rw [DA_delete_loop_full list.len (by omega) (list.len - k - 1) (list.len + 1) list.heap k
    (by omega) (by omega) (by omega)]
  rfl

/-! ## `DA_count` and `DA_remove` -/

theorem elems_length (list : DA) (h : list.len ≤ list.heap.length) :
    (elems list).length = list.len := by
  unfold elems; simp; omega

theorem elems_getElem (list : DA) (i : Nat) (h : list.len ≤ list.heap.length)
    (hi : i < list.len) :
    rd list.heap i = .ok ((elems list).get ⟨i, by rw [elems_length list h]; exact hi⟩) := by
  rw [rd_eq _ _ (by omega)]
  simp [elems]

/-- The loop of `DA_count` from index `i` with `count = c` ends with `c` plus
the number of occurrences among the live elements from `i` on. -/
theorem DA_count_loop_ok (list : DA) (w : Int) (hl : list.len ≤ list.heap.length)
    (hb : list.len ≤ INT_MAX) :
    ∀ (m fuel i : Nat) (c : Int), i + m = list.len → m + 1 ≤ fuel →
      DA_count_loop list w fuel (i : Int) c =
        .ok (c + (((elems list).drop i).count w : Nat)) := by
  intro m
  induction m with
  | zero =>
    intro fuel i c hi hf
    obtain ⟨f, rfl⟩ : ∃ f, fuel = f + 1 := ⟨fuel - 1, by omega⟩
    have ht : toSizeT (i : Int) = i :=
      toSizeT_ofNat _ (by unfold SIZE_MOD INT_MAX at *; omega)
    unfold DA_count_loop
    rw [ht, if_neg (by omega), List.drop_eq_nil_iff.mpr (by rw [elems_length list hl]; omega)]
    simp
  | succ m ih =>
    intro fuel i c hi hf
    obtain ⟨f, rfl⟩ : ∃ f, fuel = f + 1 := ⟨fuel - 1, by omega⟩
    have ht : toSizeT (i : Int) = i :=
      toSizeT_ofNat _ (by unfold SIZE_MOD INT_MAX at *; omega)
    have hc : ((i : Int) + 1) = ((i + 1 : Nat) : Int) := by omega
    have hlen := elems_length list hl
    unfold DA_count_loop
    rw [ht, if_pos (by omega), rdI_ofNat, elems_getElem list i hl (by omega)]
    simp only [Run.ok_bind]
    rw [hc, ih f (i + 1) _ (by omega) (by omega), ih f (i + 1) _ (by omega) (by omega)]
    rw [List.drop_eq_getElem_cons (by omega : i < (elems list).length), List.count_cons]
    by_cases hv : (elems list).get ⟨i, by omega⟩ = w
    · have hv2 : (elems list)[i] = w := hv
      simp only [hv, if_true, hv2, beq_self_eq_true]
      congr 1
      push_cast
      omega
    · have hv2 : ¬ (elems list)[i] = w := hv
      simp only [hv, if_false, hv2, beq_iff_eq]
      simp

/-- Function `DA_count` returns the number of occurrences among the live elements. -/
theorem DA_count_ok (list : DA) (w : Int) (hl : list.len ≤ list.heap.length)
    (hb : list.len ≤ INT_MAX) :
    DA_count list w = .ok (((elems list).count w : Nat) : Int) := by
  unfold DA_count
  rw [show (0 : Int) = ((0 : Nat) : Int) from rfl,
    DA_count_loop_ok list w hl hb list.len (list.len + 1) 0 _ (by omega) (by omega)]
  simp

/-- Containers whose live elements are permutations of each other have the
same `DA_count`. -/
theorem DA_count_perm (l1 l2 : DA) (v : Int) (h1 : l1.len ≤ l1.heap.length)
    (hb1 : l1.len ≤ INT_MAX) (h2 : l2.len ≤ l2.heap.length) (hb2 : l2.len ≤ INT_MAX)
    (hp : List.Perm (elems l1) (elems l2)) : DA_count l1 v = DA_count l2 v := by
  rw [DA_count_ok l1 v h1 hb1, DA_count_ok l2 v h2 hb2, hp.count_eq v]

/-- The loop of `DA_remove` from index `i` on a well-formed container that
is not full: the live elements before `i` stay, those from `i` on that differ
from `v` stay in order, the others are deleted. -/
theorem DA_remove_loop_ok (junk : Nat → Int) (v : Int) :
    ∀ (m fuel : Nat) (list : DA) (i : Nat), WF list → list.len < list.size →
      i + m = list.len → m + 1 ≤ fuel →
      ∃ list2, DA_remove_loop junk v fuel list (i : Int) = .ok list2 ∧
        list2.len ≤ list2.heap.length ∧ list2.len ≤ INT_MAX ∧
        elems list2 = (elems list).take i ++
          ((elems list).drop i).filter (fun x => decide (x ≠ v)) := by
  intro m
  induction m with
  | zero =>
    intro fuel list i hwf _ hi hf
    obtain ⟨f, rfl⟩ : ∃ f, fuel = f + 1 := ⟨fuel - 1, by omega⟩
    obtain ⟨hh, hl, hi1, hs, hinc⟩ := hwf
    have ht : toSizeT (i : Int) = i :=
      toSizeT_ofNat _ (by unfold SIZE_MOD INT_MAX at *; omega)
    have hlen := elems_length list (by omega)
    refine ⟨list, ?_, by omega, by omega, ?_⟩
    · unfold DA_remove_loop
      rw [ht, if_neg (by omega)]; rfl
    · rw [List.drop_eq_nil_iff.mpr (by omega), List.take_of_length_le (by omega)]
      simp
  | succ m ih =>
    intro fuel list i hwf hroom hi hf
    obtain ⟨f, rfl⟩ : ∃ f, fuel = f + 1 := ⟨fuel - 1, by omega⟩
    have hwf2 := hwf
    obtain ⟨hh, hl, hi1, hs, hinc⟩ := hwf
    have ht : toSizeT (i : Int) = i :=
      toSizeT_ofNat _ (by unfold SIZE_MOD INT_MAX at *; omega)
    have hc : ((i : Int) + 1) = ((i + 1 : Nat) : Int) := by omega
    have hc2 : ((i : Int) - 1 + 1) = (i : Int) := by omega
    have hlen := elems_length list (by omega)
    have hdrop := List.drop_eq_getElem_cons (by omega : i < (elems list).length)
    unfold DA_remove_loop
    rw [ht, if_pos (by omega), rdI_ofNat, elems_getElem list i (by omega) (by omega)]
    simp only [Run.ok_bind]
    by_cases hv : (elems list).get ⟨i, by omega⟩ = v
    · have hv2 : (elems list)[i] = v := hv
      obtain ⟨l1, h1, hl1, hwf1, hroom1, he1⟩ := DA_delete_ok junk list i hwf2 hroom (by omega)
      obtain ⟨l2, h2, hle2, hb2, he2⟩ := ih f l1 i hwf1 hroom1 (by omega) (by omega)
      refine ⟨l2, ?_, hle2, hb2, ?_⟩
      · rw [if_pos hv, h1]
        simp only [Run.ok_bind, hc2]
        exact h2
      · rw [he2, he1, hdrop, List.filter_cons, hv2]
        have htl : (List.take i (elems list)).length = i := by simp; omega
        rw [List.take_append_of_le_length (by omega), List.take_of_length_le (by omega),
          List.drop_append_of_le_length (by omega), List.drop_of_length_le (by omega)]
        simp
    · have hv2 : ¬ (elems list)[i] = v := hv
      obtain ⟨l2, h2, hle2, hb2, he2⟩ := ih f list (i + 1) hwf2 hroom (by omega) (by omega)
      refine ⟨l2, ?_, hle2, hb2, ?_⟩
      · rw [if_neg hv, hc]
        exact h2
      · have e1 : List.take (i + 1) (elems list) = List.take i (elems list) ++ [(elems list)[i]] := by
          rw [List.take_succ, List.getElem?_eq_getElem (by omega : i < (elems list).length)]
          rfl
        have e2 : decide ((elems list)[i] ≠ v) = true := by simp [hv2]
        rw [he2, e1, hdrop, List.filter_cons, if_pos e2, List.append_assoc]
        rfl

/-- The loop of `DA_remove` on a well-formed container that is full, with an
occurrence of `v` at or after index `i`: the first deletion reads outside the
allocation. -/
theorem DA_remove_loop_full (junk : Nat → Int) (v : Int) (list : DA) (hwf : WF list)
    (hfull : list.len = list.size) :
    ∀ (m fuel i : Nat), i + m = list.len → m + 1 ≤ fuel →
      (∃ j, i ≤ j ∧ (elems list)[j]? = some v) →
      DA_remove_loop junk v fuel list (i : Int) = .oob := by
  have hwf2 := hwf
  obtain ⟨hh, hl, hi1, hs, hinc⟩ := hwf
  have hlen := elems_length list (by omega)
  intro m
  induction m with
  | zero =>
    intro fuel i hi hf hj
    obtain ⟨j, hj1, hj2⟩ := hj
    have := (List.getElem?_eq_some_iff.mp hj2).1
    omega
  | succ m ih =>
    intro fuel i hi hf hj
    obtain ⟨f, rfl⟩ : ∃ f, fuel = f + 1 := ⟨fuel - 1, by omega⟩
    have ht : toSizeT (i : Int) = i :=
      toSizeT_ofNat _ (by unfold SIZE_MOD INT_MAX at *; omega)
    have hc : ((i : Int) + 1) = ((i + 1 : Nat) : Int) := by omega
    unfold DA_remove_loop
    rw [ht, if_pos (by omega), rdI_ofNat, elems_getElem list i (by omega) (by omega)]
    simp only [Run.ok_bind]
    by_cases hv : (elems list).get ⟨i, by omega⟩ = v
    · rw [if_pos hv, DA_delete_full_oob junk list i hwf2 hfull (by omega)]
      rfl
    · rw [if_neg hv, hc]
      obtain ⟨j, hj1, hj2⟩ := hj
      have hne : j ≠ i := by
        rintro rfl
        rw [List.getElem?_eq_getElem (by omega)] at hj2
        simp only [Option.some.injEq] at hj2
        exact hv hj2
      exact ih f (i + 1) (by omega) (by omega) ⟨j, by omega, hj2⟩

/-! ## `DA_sort` -/

theorem inv_cons (a : Int) (l : List Int) :
    inv (a :: l) = l.countP (fun b => decide (b < a)) + inv l := rfl

theorem inv_le_sq (l : List Int) : inv l ≤ l.length * l.length := by
  induction l with
  | nil => simp [inv]
  | cons a t ih =>
    have h := List.countP_le_length (fun b => decide (b < a)) (l := t)
    simp only [inv_cons, List.length_cons]
    nlinarith

theorem inv_swap (pre post : List Int) (a b : Int) (h : a < b) :
    inv (pre ++ a :: b :: post) + 1 = inv (pre ++ b :: a :: post) := by
  induction pre with
  | nil =>
    simp only [List.nil_append, inv_cons, List.countP_cons]
    have h1 : decide (b < a) = false := by simp; omega
    have h2 : decide (a < b) = true := by simp [h]
    simp only [h1, h2]
    simp
    omega
  | cons c t ih =>
    simp only [List.cons_append, inv_cons]
    have : List.countP (fun x => decide (x < c)) (t ++ a :: b :: post) =
        List.countP (fun x => decide (x < c)) (t ++ b :: a :: post) := by
      simp only [List.countP_append, List.countP_cons]
      omega
    omega

theorem swap_decomp (l : List Int) (i : Nat) (h1 : 1 ≤ i) (h : i < l.length) :
    l = l.take (i - 1) ++ l.get ⟨i - 1, by omega⟩ :: l.get ⟨i, h⟩ :: l.drop (i + 1) ∧
    (l.set i (l.get ⟨i - 1, by omega⟩)).set (i - 1) (l.get ⟨i, h⟩) =
      l.take (i - 1) ++ l.get ⟨i, h⟩ :: l.get ⟨i - 1, by omega⟩ :: l.drop (i + 1) := by
  obtain ⟨k, rfl⟩ : ∃ k, i = k + 1 := ⟨i - 1, by omega⟩
  simp only [Nat.add_sub_cancel]
  have hk : k < l.length := by omega
  have h3 : l.drop k = l[k] :: l[k + 1] :: l.drop (k + 1 + 1) := by
    rw [List.drop_eq_getElem_cons hk, List.drop_eq_getElem_cons h]
  have h4 : l = l.take k ++ l[k] :: l[k + 1] :: l.drop (k + 1 + 1) := by
    rw [← h3, List.take_append_drop]
  refine ⟨h4, ?_⟩
  simp only [List.get_eq_getElem]
  generalize l[k] = x at h4 ⊢
  generalize l[k + 1] = y at h4 ⊢
  generalize hp : l.take k = pre at h4 ⊢
  generalize l.drop (k + 1 + 1) = post at h4 ⊢
  have hpl : pre.length = k := by rw [← hp]; simp; omega
  subst h4
  rw [List.set_append_right _ _ (by omega), List.set_append_right _ _ (by omega)]
  simp [hpl]

theorem take_two_mid (pre post : List Int) (x y : Int) (len : Nat)
    (h : pre.length + 2 ≤ len) :
    (pre ++ x :: y :: post).take len = pre ++ x :: y :: post.take (len - pre.length - 2) := by
  induction pre generalizing len with
  | nil =>
    obtain ⟨m, rfl⟩ : ∃ m, len = m + 2 := ⟨len - 2, by simp at h; omega⟩
    simp
  | cons c t ih =>
    obtain ⟨m, rfl⟩ : ∃ m, len = m + 1 := ⟨len - 1, by omega⟩
    simp only [List.length_cons] at h
    simp only [List.cons_append, List.take_succ_cons, List.length_cons]
    have e : m + 1 - (t.length + 1) - 2 = m - t.length - 2 := by omega
    rw [ih m (by omega), e]

/-- The effect of the swap of `DA_sort` at `k` on the first `len` slots: a
permutation with one inversion less. -/
theorem swap_take (heap heap2 : List Int) (k len : Nat) (h1 : 1 ≤ k) (hk : k < len)
    (hl : len ≤ heap.length)
    (hlt : heap.get ⟨k, by omega⟩ < heap.get ⟨k - 1, by omega⟩)
    (h2 : heap2 = (heap.set k (heap.get ⟨k - 1, by omega⟩)).set (k - 1)
        (heap.get ⟨k, by omega⟩)) :
    heap2.length = heap.length ∧ List.Perm (heap2.take len) (heap.take len) ∧
      inv (heap2.take len) + 1 = inv (heap.take len) := by
  obtain ⟨hd1, hd2⟩ := swap_decomp heap k h1 (by omega)
  rw [← h2] at hd2
  have hpl : (List.take (k - 1) heap).length = k - 1 := by simp; omega
  have hlen : heap2.length = heap.length := by rw [h2]; simp
  generalize heap.get ⟨k, by omega⟩ = a at hd1 hd2 hlt
  generalize heap.get ⟨k - 1, by omega⟩ = b at hd1 hd2 hlt
  generalize List.take (k - 1) heap = pre at hd1 hd2 hpl
  generalize List.drop (k + 1) heap = post at hd1 hd2
  refine ⟨hlen, ?_, ?_⟩
  · rw [hd2, hd1, take_two_mid _ _ _ _ _ (by omega), take_two_mid _ _ _ _ _ (by omega)]
    exact List.Perm.append_left _ (List.Perm.swap _ _ _)
  · rw [hd2, hd1, take_two_mid _ _ _ _ _ (by omega), take_two_mid _ _ _ _ _ (by omega)]
    exact inv_swap _ _ _ _ hlt

/-- The second half of the loop body of `DA_sort` at an index `k` with
`1 ≤ k < heap.length`. -/
theorem DA_sort_body_eq (heap : List Int) (k : Nat) (r : Bool) (h1 : 1 ≤ k)
    (hk : k < heap.length) :
    DA_sort_body heap (k : Int) r =
      if heap.get ⟨k, hk⟩ < heap.get ⟨k - 1, by omega⟩ then
        .ok ((heap.set k (heap.get ⟨k - 1, by omega⟩)).set (k - 1) (heap.get ⟨k, hk⟩),
          (k : Int), true)
      else .ok (heap, ((k + 1 : Nat) : Int), r) := by
  have hc : (k : Int) - 1 = ((k - 1 : Nat) : Int) := by omega
  have hc2 : ((k - 1 : Nat) : Int) + 1 = (k : Int) := by omega
  unfold DA_sort_body
  rw [hc, rdI_ofNat, rdI_ofNat, rd_eq _ _ hk, rd_eq _ _ (by omega)]
  simp only [Run.ok_bind]
  split_ifs with hlt
  · rw [wrI_ofNat, wr_eq _ _ _ hk]
    simp only [Run.ok_bind]
    rw [wrI_ofNat, wr_eq _ _ _ (by simp; omega)]
    simp only [Run.ok_bind, Run.pure_eq, hc2]
  · simp

theorem AdjSorted_succ (heap : List Int) (k : Nat) (h1 : 1 ≤ k) (hk : k < heap.length)
    (h : AdjSorted heap k)
    (hle : ¬ heap.get ⟨k, hk⟩ < heap.get ⟨k - 1, by omega⟩) : AdjSorted heap (k + 1) := by
  intro j x y hj hx hy
  by_cases c : j + 1 < k
  · exact h j x y c hx hy
  · have e : j = k - 1 := by omega
    subst e
    have e2 : k - 1 + 1 = k := by omega
    rw [e2] at hy
    rw [List.getElem?_eq_getElem (by omega)] at hx hy
    simp only [Option.some.injEq, List.get_eq_getElem] at hx hy hle
    omega

/-- One pass through the second half of the loop body of `DA_sort` at an index
`k` with `1 ≤ k < len`: either a swap, which keeps `i`, sets `r` and removes one
inversion, or no swap, which moves to `k + 1` with the slots up to `k` in order. -/
theorem DA_sort_body_step (len : Nat) (heap : List Int) (k : Nat) (r : Bool)
    (h1 : 1 ≤ k) (hk : k < len) (hl : len ≤ heap.length) :
    (∃ heap2, DA_sort_body heap (k : Int) r = .ok (heap2, (k : Int), true) ∧
      heap2.length = heap.length ∧ List.Perm (heap2.take len) (heap.take len) ∧
      inv (heap2.take len) + 1 = inv (heap.take len)) ∨
    (DA_sort_body heap (k : Int) r = .ok (heap, ((k + 1 : Nat) : Int), r) ∧
      (AdjSorted heap k → AdjSorted heap (k + 1))) := by
  have hb1 := DA_sort_body_eq heap k r h1 (by omega)
  by_cases hlt : heap.get ⟨k, by omega⟩ < heap.get ⟨k - 1, by omega⟩
  · left
    rw [if_pos hlt] at hb1
    obtain ⟨hl2, hp2, hi2⟩ := swap_take heap _ k len h1 hk hl hlt rfl
    exact ⟨_, hb1, hl2, hp2, hi2⟩
  · right
    rw [if_neg hlt] at hb1
    exact ⟨hb1, fun hs => AdjSorted_succ heap k h1 (by omega) hs hlt⟩

/-- The loop of `DA_sort` on `len ≥ 2` elements, from a state whose measure
(inversions, then the swap flag, then the distance to the end of the pass) is
below the fuel: it returns, the first `len` slots in non-decreasing order and a
permutation of what they were. -/
theorem DA_sort_loop_ok (len : Nat) (h2 : 2 ≤ len) (hb : len ≤ INT_MAX) :
    ∀ (fuel : Nat) (heap : List Int) (k : Nat) (r : Bool),
      len ≤ heap.length → 1 ≤ k → k ≤ len → (r = false → AdjSorted heap k) →
      inv (heap.take len) * (2 * (len + 1)) + (if r = true then len + 1 else 0) + (len - k)
        < fuel →
      ∃ heap2, DA_sort_loop len fuel heap (k : Int) r = .ok heap2 ∧
        heap2.length = heap.length ∧ AdjSorted heap2 len ∧
        List.Perm (heap2.take len) (heap.take len) := by
  have hsub : szSub len 1 = len - 1 :=
    szSub_eq _ _ (by omega) (by unfold SIZE_MOD INT_MAX at *; omega)
  intro fuel
  induction fuel with
  | zero => intro heap k r _ _ _ _ hm; omega
  | succ f ih =>
    intro heap k r hl h1 hk hs hm
    have ht : toSizeT (k : Int) = k :=
      toSizeT_ofNat _ (by unfold SIZE_MOD INT_MAX at *; omega)
    unfold DA_sort_loop
    rw [ht, hsub]
    by_cases hend : k > len - 1
    · have hkl : k = len := by omega
      rw [if_pos hend]
      cases r with
      | false =>
        refine ⟨heap, by simp, rfl, ?_, List.Perm.refl _⟩
        rw [← hkl]; exact hs rfl
      | true =>
        simp only [if_true] at hm ⊢
        obtain ⟨k1, hk1⟩ : ∃ k1 : Nat, k1 = 1 := ⟨1, rfl⟩
        have hone : (1 : Int) = (k1 : Int) := by rw [hk1]; rfl
        rw [hone]
        rcases DA_sort_body_step len heap k1 false (by omega) (by omega) hl with
          ⟨heap2, hb2, hl2, hp2, hi2⟩ | ⟨hb2, hs2⟩
        · have hmul : inv (heap.take len) * (2 * (len + 1)) =
              inv (heap2.take len) * (2 * (len + 1)) + 2 * (len + 1) := by
            rw [← hi2]; ring
          obtain ⟨heap3, h3, hl3, hs3, hp3⟩ := ih heap2 k1 true (by rw [hl2]; exact hl)
            (by omega) (by omega) (by simp) (by simp only [if_true]; omega)
          refine ⟨heap3, ?_, by rw [hl3, hl2], hs3, hp3.trans hp2⟩
          rw [hb2]; exact h3
        · have hs3 : AdjSorted heap (k1 + 1) := hs2 (by intro j x y hj; omega)
          obtain ⟨heap3, h3, hl3, hs3, hp3⟩ := ih heap (k1 + 1) false hl (by omega)
            (by omega) (fun _ => hs3) (by simp; omega)
          refine ⟨heap3, ?_, hl3, hs3, hp3⟩
          rw [hb2]; exact h3
    · rw [if_neg hend]
      rcases DA_sort_body_step len heap k r h1 (by omega) hl with
        ⟨heap2, hb2, hl2, hp2, hi2⟩ | ⟨hb2, hs2⟩
      · have hmul : inv (heap.take len) * (2 * (len + 1)) =
            inv (heap2.take len) * (2 * (len + 1)) + 2 * (len + 1) := by
          rw [← hi2]; ring
        obtain ⟨heap3, h3, hl3, hs3, hp3⟩ := ih heap2 k true (by rw [hl2]; exact hl) h1 hk
          (by simp) (by simp only [if_true]; split_ifs at hm <;> omega)
        refine ⟨heap3, ?_, by rw [hl3, hl2], hs3, hp3.trans hp2⟩
        rw [hb2]; exact h3
      · obtain ⟨heap3, h3, hl3, hs3, hp3⟩ := ih heap (k + 1) r hl (by omega) (by omega)
          (fun hr => hs2 (hs hr)) (by omega)
        refine ⟨heap3, ?_, hl3, hs3, hp3⟩
        rw [hb2]; exact h3

/-- Function `DA_sort` on a container of at least one element whose live elements are
inside the buffer, with `sortFuel len` iterations or more: it returns, only the
buffer changes, and the live elements are in non-decreasing order and a
permutation of what they were. -/
theorem DA_sort_ok (list : DA) (fuel : Nat) (h1 : 1 ≤ list.len)
    (hl : list.len ≤ list.heap.length) (hb : list.len ≤ INT_MAX)
    (hf : sortFuel list.len ≤ fuel) :
    ∃ heap2, DA_sort fuel list = .ok { list with heap := heap2 } ∧
      heap2.length = list.heap.length ∧
      List.Sorted (· ≤ ·) (heap2.take list.len) ∧
      List.Perm (heap2.take list.len) (elems list) := by
  unfold sortFuel at hf
  by_cases h2 : 2 ≤ list.len
  · have hinv := inv_le_sq (list.heap.take list.len)
    have hlen : (list.heap.take list.len).length = list.len := by simp; omega
    rw [hlen] at hinv
    have hmul := Nat.mul_le_mul_right (2 * (list.len + 1)) hinv
    obtain ⟨heap2, hr, hl2, hs2, hp2⟩ := DA_sort_loop_ok list.len h2 hb fuel list.heap 1 false
      hl (by omega) (by omega) (fun _ => by intro j x y hj; omega)
      (by simp only [Bool.false_eq_true, if_false]; omega)
    refine ⟨heap2, ?_, hl2, ?_, hp2⟩
    · unfold DA_sort
      simp only [Nat.cast_one] at hr
      rw [hr]; rfl
    · have hlen2 : (heap2.take list.len).length = list.len := by simp; omega
      have hc : List.Chain' (· ≤ ·) (heap2.take list.len) := by
        rw [List.chain'_iff_get]
        intro i hi
        rw [hlen2] at hi
        apply hs2 i _ _ (by omega)
        · rw [List.get_eq_getElem, List.getElem_take, List.getElem?_eq_getElem]
        · rw [List.get_eq_getElem, List.getElem_take, List.getElem?_eq_getElem]
      exact List.chain'_iff_pairwise.mp hc
  · have h1' : list.len = 1 := by omega
    obtain ⟨f, rfl⟩ : ∃ f, fuel = f + 1 := ⟨fuel - 1, by omega⟩
    refine ⟨list.heap, ?_, rfl, ?_, List.Perm.refl _⟩
    · unfold DA_sort DA_sort_loop
      rw [h1']
      have : toSizeT 1 > szSub 1 1 := by decide
      simp [this]
    · rw [h1']
      cases list.heap with
      | nil => simp
      | cons a t => simp

theorem toSizeT_lt (i : Int) : toSizeT i < SIZE_MOD := by
  unfold toSizeT SIZE_MOD; omega

/-- With `len = 0` the test `i > len-1` of `DA_sort` compares with `2^64 - 1`
and never holds, so the loop never reaches its `return`. -/
theorem DA_sort_loop_empty :
    ∀ (fuel : Nat) (heap : List Int) (i : Int) (r : Bool) (heap2 : List Int),
      DA_sort_loop 0 fuel heap i r ≠ .ok heap2 := by
  intro fuel
  induction fuel with
  | zero =>
    intro heap i r heap2
    unfold DA_sort_loop
    simp
  | succ f ih =>
    intro heap i r heap2
    have h0 : szSub 0 1 = SIZE_MOD - 1 := by decide
    have hlt := toSizeT_lt i
    unfold DA_sort_loop
    rw [h0, if_neg (by omega)]
    cases hbody : DA_sort_body heap i r with
    | ok p =>
      obtain ⟨heap3, i3, r3⟩ := p
      simp only [Run.ok_bind]
      exact ih heap3 i3 r3 heap2
    | oob => simp
    | fuel => simp

/-! ## `DA_reverse` -/

/-- The loop of `DA_reverse` from index `k`: the slots at `[k, len - k)` end
in reverse order, the other slots are unchanged. -/
theorem DA_reverse_loop_ok (len : Nat) (hb : len ≤ INT_MAX) :
    ∀ (m fuel : Nat) (heap : List Int) (k : Nat), len ≤ heap.length → k + m = len / 2 →
      m + 1 ≤ fuel →
      ∃ heap2, DA_reverse_loop len (toCInt (len / 2)) fuel heap (k : Int) = .ok heap2 ∧
        heap2.length = heap.length ∧
        ∀ j, heap2[j]? = if k ≤ j ∧ j + k < len then heap[len - 1 - j]? else heap[j]? := by
  have hhalf : toCInt (len / 2) = ((len / 2 : Nat) : Int) := toCInt_eq _ (by omega)
  intro m
  induction m with
  | zero =>
    intro fuel heap k hl hk hf
    obtain ⟨f, rfl⟩ : ∃ f, fuel = f + 1 := ⟨fuel - 1, by omega⟩
    refine ⟨heap, ?_, rfl, ?_⟩
    · unfold DA_reverse_loop
      rw [hhalf, if_neg (by omega)]; rfl
    · intro j
      split_ifs with c
      · have e : len - 1 - j = j := by omega
        rw [e]
      · rfl
  | succ m ih =>
    intro fuel heap k hl hk hf
    obtain ⟨f, rfl⟩ : ∃ f, fuel = f + 1 := ⟨fuel - 1, by omega⟩
    have ht : toSizeT (k : Int) = k :=
      toSizeT_ofNat _ (by unfold SIZE_MOD INT_MAX at *; omega)
    have hc : ((k : Int) + 1) = ((k + 1 : Nat) : Int) := by omega
    have hs1 : szSub len 1 = len - 1 :=
      szSub_eq _ _ (by omega) (by unfold SIZE_MOD INT_MAX at *; omega)
    have hs2 : szSub (len - 1) k = len - 1 - k :=
      szSub_eq _ _ (by omega) (by unfold SIZE_MOD INT_MAX at *; omega)
    have hk1 : k < heap.length := by omega
    have hk2 : len - 1 - k < heap.length := by omega
    obtain ⟨heap2, h2, hl2, hp2⟩ := ih f
      ((heap.set k (heap.get ⟨len - 1 - k, hk2⟩)).set (len - 1 - k) (heap.get ⟨k, hk1⟩))
      (k + 1) (by simp; omega) (by omega) (by omega)
    refine ⟨heap2, ?_, by simpa using hl2, ?_⟩
    · unfold DA_reverse_loop
      rw [hhalf, if_pos (by omega), rdI_ofNat, rd_eq _ _ hk1, ht, hs1, hs2]
      simp only [Run.ok_bind]
      rw [rd_eq _ _ hk2]
      simp only [Run.ok_bind]
      rw [wrI_ofNat, wr_eq _ _ _ hk1]
      simp only [Run.ok_bind]
      rw [wr_eq _ _ _ (by simp; omega)]
      simp only [Run.ok_bind]
      rw [hc, ← hhalf]
      exact h2
    · intro j
      rw [hp2 j]
      simp only [List.getElem?_set, List.length_set, List.get_eq_getElem]
      by_cases c1 : j = k
      · subst c1
        have e1 : ¬ (j + 1 ≤ j ∧ j + (j + 1) < len) := by omega
        have e2 : ¬ len - 1 - j = j := by omega
        have e3 : j ≤ j ∧ j + j < len := by omega
        simp only [e1, e2, e3, if_true, if_false, hk1, and_self]
        rw [List.getElem?_eq_getElem hk2]
      · by_cases c2 : j = len - 1 - k
        · subst c2
          have e1 : ¬ (k + 1 ≤ len - 1 - k ∧ len - 1 - k + (k + 1) < len) := by omega
          have e3 : k ≤ len - 1 - k ∧ len - 1 - k + k < len := by omega
          have e4 : len - 1 - (len - 1 - k) = k := by omega
          simp only [e1, e3, if_true, if_false, hk2, e4]
          simp [List.getElem?_eq_getElem hk1]
        · by_cases c3 : k + 1 ≤ j ∧ j + (k + 1) < len
          · have e1 : ¬ len - 1 - k = len - 1 - j := by omega
            have e2 : ¬ k = len - 1 - j := by omega
            have e3 : k ≤ j ∧ j + k < len := by omega
            simp only [c3, e1, e2, e3, if_true, if_false, and_self]
          · have e1 : ¬ len - 1 - k = j := by omega
            have e2 : ¬ k = j := by omega
            have e3 : ¬ (k ≤ j ∧ j + k < len) := by omega
            simp only [c3, e1, e2, e3, if_false]

/-- Function `DA_reverse` on a container whose live elements are inside the buffer: it
returns, only the buffer changes, the live elements are reversed and the
slots from `len` on are unchanged. -/
theorem DA_reverse_ok (list : DA) (hl : list.len ≤ list.heap.length)
    (hb : list.len ≤ INT_MAX) :
    ∃ heap2, DA_reverse list = .ok { list with heap := heap2 } ∧
      heap2.length = list.heap.length ∧
      heap2.take list.len = (list.heap.take list.len).reverse ∧
      heap2.drop list.len = list.heap.drop list.len := by
  obtain ⟨heap2, h2, hl2, hp2⟩ := DA_reverse_loop_ok list.len hb (list.len / 2)
    (list.len + 1) list.heap 0 hl (by omega) (by omega)
  refine ⟨heap2, ?_, hl2, ?_, ?_⟩
  · unfold DA_reverse
    simp only [Nat.cast_zero] at h2
    simp only [h2, Run.ok_bind, Run.pure_eq]
  · apply List.ext_getElem?
    intro j
    have hlen : (List.take list.len list.heap).length = list.len := by simp; omega
    by_cases c : j < list.len
    · rw [List.getElem?_reverse (by omega), hlen, List.getElem?_take, List.getElem?_take,
        if_pos c, if_pos (by omega), hp2 j, if_pos (by omega)]
    · rw [List.getElem?_take, if_neg c, List.getElem?_eq_none (by simp; omega)]
  · apply List.ext_getElem?
    intro j
    rw [List.getElem?_drop, List.getElem?_drop, hp2, if_neg (by omega)]

/-! ## `DA_compare` -/

/-- The loop of `DA_compare` from index `i` on two containers of equal length:
1 when the live elements from `i` on agree, else 0. -/
theorem DA_compare_loop_ok (l1 l2 : DA) (h1 : l1.len ≤ l1.heap.length)
    (h2 : l2.len ≤ l2.heap.length) (hlen : l1.len = l2.len) (hb : l1.len ≤ INT_MAX) :
    ∀ (m fuel i : Nat), i + m = l1.len → m + 1 ≤ fuel →
      DA_compare_loop l1 l2 fuel (i : Int) =
        .ok (if (elems l1).drop i = (elems l2).drop i then 1 else 0) := by
  have hl1 := elems_length l1 h1
  have hl2 := elems_length l2 h2
  intro m
  induction m with
  | zero =>
    intro fuel i hi hf
    obtain ⟨f, rfl⟩ : ∃ f, fuel = f + 1 := ⟨fuel - 1, by omega⟩
    have ht : toSizeT (i : Int) = i :=
      toSizeT_ofNat _ (by unfold SIZE_MOD INT_MAX at *; omega)
    unfold DA_compare_loop
    rw [ht, if_neg (by omega), List.drop_eq_nil_iff.mpr (by omega),
      List.drop_eq_nil_iff.mpr (by omega)]
    simp
  | succ m ih =>
    intro fuel i hi hf
    obtain ⟨f, rfl⟩ : ∃ f, fuel = f + 1 := ⟨fuel - 1, by omega⟩
    have ht : toSizeT (i : Int) = i :=
      toSizeT_ofNat _ (by unfold SIZE_MOD INT_MAX at *; omega)
    have hc : ((i : Int) + 1) = ((i + 1 : Nat) : Int) := by omega
    have hd1 := List.drop_eq_getElem_cons (by omega : i < (elems l1).length)
    have hd2 := List.drop_eq_getElem_cons (by omega : i < (elems l2).length)
    unfold DA_compare_loop
    rw [ht, if_pos (by omega), rdI_ofNat, rdI_ofNat, elems_getElem l1 i h1 (by omega),
      elems_getElem l2 i h2 (by omega)]
    simp only [Run.ok_bind, List.get_eq_getElem]
    rw [hd1, hd2, hc, ih f (i + 1) (by omega) (by omega)]
    generalize (elems l1)[i] = a
    generalize (elems l2)[i] = b
    generalize List.drop (i + 1) (elems l1) = t1
    generalize List.drop (i + 1) (elems l2) = t2
    by_cases hv : a = b
    · simp [hv]
    · simp [hv]

/-- Function `DA_compare` on two containers whose live elements are inside their
buffers: 1 when the live elements are the same sequence, else 0. -/
theorem DA_compare_ok (l1 l2 : DA) (h1 : l1.len ≤ l1.heap.length)
    (h2 : l2.len ≤ l2.heap.length) (hb : l1.len ≤ INT_MAX) :
    DA_compare l1 l2 = .ok (if elems l1 = elems l2 then 1 else 0) := by
  have hl1 := elems_length l1 h1
  have hl2 := elems_length l2 h2
  unfold DA_compare
  by_cases hlen : l1.len = l2.len
  · rw [if_neg (by simpa using hlen)]
    have := DA_compare_loop_ok l1 l2 h1 h2 hlen hb l1.len (l1.len + 1) 0 (by omega) (by omega)
    simp only [Nat.cast_zero, List.drop_zero] at this
    exact this
  · rw [if_pos hlen]
    have hne : elems l1 ≠ elems l2 := by
      intro he
      have := congrArg List.length he
      omega
    simp [hne]

/-- The live elements of two containers are the same sequence exactly when the
lengths are equal and the slots agree at every index below the length. -/
theorem elems_eq_iff (l1 l2 : DA) (h1 : l1.len ≤ l1.heap.length)
    (h2 : l2.len ≤ l2.heap.length) :
    elems l1 = elems l2 ↔
      (l1.len = l2.len ∧ ∀ i, i < l1.len → l1.heap[i]? = l2.heap[i]?) := by
  have hl1 := elems_length l1 h1
  have hl2 := elems_length l2 h2
  constructor
  · intro he
    have hlen : l1.len = l2.len := by
      have := congrArg List.length he
      omega
    refine ⟨hlen, fun i hi => ?_⟩
    have := congrArg (fun l => l[i]?) he
    simp only [elems, List.getElem?_take] at this
    rw [if_pos hi, if_pos (by omega)] at this
    exact this
  · rintro ⟨hlen, hp⟩
    apply List.ext_getElem?
    intro i
    simp only [elems, List.getElem?_take]
    by_cases hi : i < l1.len
    · rw [if_pos hi, if_pos (by omega)]; exact hp i hi
    · rw [if_neg hi, if_neg (by omega)]

/-! ## `DA_extend`, `DA_copy` and `DA_merge` -/

/-- The loop shared by `DA_copy` and `DA_extend`, from index `i` of the source,
on a well-formed destination that either has room for the `m` remaining
values without any change of capacity, or can grow within the range of `int`:
the remaining live elements of the source are appended in order. -/
theorem DA_extend_loop_ok (junk : Nat → Int) (src : DA) (hl : src.len ≤ src.heap.length)
    (hb : src.len ≤ INT_MAX) :
    ∀ (m fuel : Nat) (dst : DA) (i : Nat), WF dst → i + m = src.len → m + 1 ≤ fuel →
      ((dst.len + m ≤ dst.size ∧ dst.size ≤ dst.len + dst.inc) ∨
        dst.len + m + dst.inc ≤ INT_MAX) →
      ∃ dst2, DA_extend_loop junk src fuel dst (i : Int) = .ok dst2 ∧
        elems dst2 = elems dst ++ (elems src).drop i ∧ dst2.len = dst.len + m ∧
        WF dst2 ∧ dst2.inc = dst.inc ∧
        ((dst.len + m ≤ dst.size ∧ dst.size ≤ dst.len + dst.inc) → dst2.size = dst.size) := by
  have hlen := elems_length src hl
  intro m
  induction m with
  | zero =>
    intro fuel dst i hwf hi hf _
    obtain ⟨f, rfl⟩ : ∃ f, fuel = f + 1 := ⟨fuel - 1, by omega⟩
    have ht : toSizeT (i : Int) = i :=
      toSizeT_ofNat _ (by unfold SIZE_MOD INT_MAX at *; omega)
    refine ⟨dst, ?_, ?_, rfl, hwf, rfl, fun _ => rfl⟩
    · unfold DA_extend_loop
      rw [ht, if_neg (by omega)]; rfl
    · rw [List.drop_eq_nil_iff.mpr (by omega), List.append_nil]
  | succ m ih =>
    intro fuel dst i hwf hi hf hcap
    obtain ⟨f, rfl⟩ : ∃ f, fuel = f + 1 := ⟨fuel - 1, by omega⟩
    have ht : toSizeT (i : Int) = i :=
      toSizeT_ofNat _ (by unfold SIZE_MOD INT_MAX at *; omega)
    have hc : ((i : Int) + 1) = ((i + 1 : Nat) : Int) := by omega
    have hdrop := List.drop_eq_getElem_cons (by omega : i < (elems src).length)
    obtain ⟨d1, h1, he1, hl1, hi1, hh1, hle1, hs1⟩ :=
      DA_append_ok junk dst ((elems src).get ⟨i, by omega⟩) hwf
    obtain ⟨hdh, hdl, hdi1, hds, hdi⟩ := hwf
    have hsz1 : d1.size ≤ INT_MAX := by
      rw [hs1]; split_ifs <;> omega
    have hwf1 : WF d1 := ⟨hh1, hle1, by omega, hsz1, by omega⟩
    have hcap1 : (d1.len + m ≤ d1.size ∧ d1.size ≤ d1.len + d1.inc) ∨
        d1.len + m + d1.inc ≤ INT_MAX := by
      rcases hcap with ⟨ha, hb2⟩ | hb2
      · left
        have : d1.size = dst.size := by
          rw [hs1, if_neg (by omega), if_neg (by omega)]
        omega
      · right; omega
    obtain ⟨d2, h2, he2, hl2, hwf2, hi2, hs2⟩ := ih f d1 (i + 1) hwf1 (by omega) (by omega) hcap1
    refine ⟨d2, ?_, ?_, by omega, hwf2, by omega, ?_⟩
    · unfold DA_extend_loop
      rw [ht, if_pos (by omega), rdI_ofNat, elems_getElem src i hl (by omega)]
      simp only [Run.ok_bind]
      rw [h1]
      simp only [Run.ok_bind]
      rw [hc]
      exact h2
    · rw [he2, he1, hdrop, List.append_assoc]
      rfl
    · rintro ⟨ha, hb2⟩
      have h3 : d1.size = dst.size := by
        rw [hs1, if_neg (by omega), if_neg (by omega)]
      rw [hs2 ⟨by omega, by omega⟩, h3]

/-- Function `DA_extend` on a well-formed target that can grow within the range
of `int`, by a source whose live elements are inside its buffer: the live
elements of the source are appended in order to those of the target. -/
theorem DA_extend_ok (junk : Nat → Int) (list1 list2 : DA) (h1 : WF list1)
    (hl : list2.len ≤ list2.heap.length)
    (hb : list1.len + list2.len + list1.inc ≤ INT_MAX) :
    ∃ t, DA_extend junk list1 list2 = .ok t ∧
      elems t = elems list1 ++ elems list2 ∧ t.len = list1.len + list2.len ∧
      WF t ∧ t.inc = list1.inc := by
  obtain ⟨t, ht, he, hlen, hwf, hinc, _⟩ := DA_extend_loop_ok junk list2 hl (by omega)
    list2.len (list2.len + 1) list1 0 h1 (by omega) (by omega) (Or.inr hb)
  refine ⟨t, ?_, by simpa using he, hlen, hwf, hinc⟩
  unfold DA_extend
  simpa using ht

/-! ## `DA_split` -/

/-- Function `DA_delete` never changes the growth step. -/
theorem DA_delete_inc (junk : Nat → Int) (list : DA) (index : Int) (list2 : DA) (r : Int)
    (h : DA_delete junk list index = .ok (list2, r)) : list2.inc = list.inc := by
  unfold DA_delete at h
  by_cases hc : DA_outofbounds list index = true
  · rw [if_pos hc] at h
    simp only [Run.pure_eq, Run.ok.injEq, Prod.mk.injEq] at h
    rw [← h.1]
  · rw [if_neg hc] at h
    generalize DA_delete_loop _ _ _ _ = x at h
    cases x with
    | ok heap =>
      simp only [Run.ok_bind, Run.pure_eq, Run.ok.injEq, Prod.mk.injEq] at h
      rw [← h.1, DA_check_inc]
    | oob => simp at h
    | fuel => simp at h

/-- The loop of `DA_split` at the index `k`, on a well-formed source that is
not full and a well-formed destination with room for the `m` values that
remain: the live elements of the source from `k` on move to the destination in
order, the source keeps those before `k`. -/
theorem DA_split_loop_ok (junk : Nat → Int) (k : Nat) :
    ∀ (m fuel : Nat) (l1 l2 : DA), WF l1 → l1.len < l1.size → k + m = l1.len →
      m + 1 ≤ fuel → WF l2 → l2.len + m ≤ l2.size → l2.size ≤ l2.len + l2.inc →
      ∃ a b, DA_split_loop junk (k : Int) fuel l1 l2 = .ok (a, b) ∧
        elems a = (elems l1).take k ∧ elems b = elems l2 ++ (elems l1).drop k ∧
        a.len = k ∧ b.len = l2.len + m ∧ WF a ∧ a.inc = l1.inc ∧ WF b := by
  intro m
  induction m with
  | zero =>
    intro fuel l1 l2 hwf1 _ hk hf hwf2 _ _
    obtain ⟨f, rfl⟩ : ∃ f, fuel = f + 1 := ⟨fuel - 1, by omega⟩
    obtain ⟨hh, hl, _, hs, _⟩ := hwf1
    have ht : toSizeT (k : Int) = k :=
      toSizeT_ofNat _ (by unfold SIZE_MOD INT_MAX at *; omega)
    have hlen := elems_length l1 (by omega)
    refine ⟨l1, l2, ?_, ?_, ?_, by omega, rfl, ⟨hh, hl, by assumption, hs, by assumption⟩,
      rfl, hwf2⟩
    · unfold DA_split_loop
      rw [ht, if_neg (by omega)]; rfl
    · rw [List.take_of_length_le (by omega)]
    · rw [List.drop_eq_nil_iff.mpr (by omega), List.append_nil]
  | succ m ih =>
    intro fuel l1 l2 hwf1 hroom hk hf hwf2 hcap1 hcap2
    obtain ⟨f, rfl⟩ : ∃ f, fuel = f + 1 := ⟨fuel - 1, by omega⟩
    have hwf1b := hwf1
    have hwf2b := hwf2
    obtain ⟨hh, hl, _, hs, _⟩ := hwf1
    obtain ⟨h2h, h2l, h2i1, h2s, h2i⟩ := hwf2
    have ht : toSizeT (k : Int) = k :=
      toSizeT_ofNat _ (by unfold SIZE_MOD INT_MAX at *; omega)
    have hlen := elems_length l1 (by omega)
    have hdrop := List.drop_eq_getElem_cons (by omega : k < (elems l1).length)
    obtain ⟨b1, hb1, heb1, hlb1, hib1, hhb1, hleb1, hsb1⟩ :=
      DA_append_ok junk l2 ((elems l1).get ⟨k, by omega⟩) hwf2b
    have hsb2 : b1.size = l2.size := by
      rw [hsb1, if_neg (by omega), if_neg (by omega)]
    have hwfb1 : WF b1 := ⟨hhb1, hleb1, by omega, by omega, by omega⟩
    obtain ⟨a1, ha1, hla1, hwfa1, hrooma1, hea1⟩ := DA_delete_ok junk l1 k hwf1b hroom (by omega)
    have hinca1 := DA_delete_inc junk l1 (k : Int) a1 0 ha1
    obtain ⟨a, b, hr, hea, heb, hla, hlb, hwfa, hinca, hwfb⟩ :=
      ih f a1 b1 hwfa1 hrooma1 (by omega) (by omega) hwfb1 (by omega) (by omega)
    refine ⟨a, b, ?_, ?_, ?_, hla, by omega, hwfa, by omega, hwfb⟩
    · unfold DA_split_loop
      rw [ht, if_pos (by omega), rdI_ofNat, elems_getElem l1 k (by omega) (by omega)]
      simp only [Run.ok_bind]
      rw [hb1]
      simp only [Run.ok_bind]
      rw [ha1]
      simp only [Run.ok_bind]
      exact hr
    · have htl : (List.take k (elems l1)).length = k := by simp; omega
      rw [hea, hea1, List.take_append_of_le_length (by omega),
        List.take_of_length_le (by omega)]
    · have htl : (List.take k (elems l1)).length = k := by simp; omega
      rw [heb, heb1, hea1, hdrop, List.drop_append_of_le_length (by omega),
        List.drop_of_length_le (by omega), List.append_assoc]
      rfl

/-- The index that `DA_split` uses after its clamp, for an index in the range
of `int` and a length in that range, is `splitPoint`. -/
theorem DA_split_clamp (len : Nat) (index : Int) (hb : len ≤ INT_MAX)
    (hlo : -(INT_MAX : Int) - 1 ≤ index) (hhi : index ≤ (INT_MAX : Int)) :
    (if toSizeT index > len then toCInt len else index) = ((splitPoint len index : Nat) : Int) ∧
    splitPoint len index ≤ len := by
  unfold splitPoint
  by_cases hn : index < 0
  · have := toSizeT_neg index hn hlo
    have hgt : toSizeT index > len := by unfold SIZE_MOD INT_MAX at *; omega
    rw [if_pos hgt, if_pos (Or.inl hn), toCInt_eq _ hb]
    exact ⟨rfl, Nat.le_refl _⟩
  · obtain ⟨m, rfl⟩ : ∃ m : Nat, index = (m : Int) := ⟨index.toNat, by omega⟩
    rw [toSizeT_ofNat _ (by unfold SIZE_MOD INT_MAX at *; omega)]
    by_cases hgt : m > len
    · rw [if_pos hgt, if_pos (Or.inr (by omega)), toCInt_eq _ hb]
      exact ⟨rfl, Nat.le_refl _⟩
    · rw [if_neg hgt, if_neg (by omega)]
      simp
      omega

/-- Function `DA_split` after its clamp: the loop at `splitPoint`, on a fresh
destination of capacity `len - splitPoint`. -/
theorem DA_split_eq (junk : Nat → Int) (l1 l2 : DA) (index : Int) (hb : l1.len ≤ INT_MAX)
    (hlo : -(INT_MAX : Int) - 1 ≤ index) (hhi : index ≤ (INT_MAX : Int)) :
    DA_split junk l1 l2 index =
      DA_split_loop junk ((splitPoint l1.len index : Nat) : Int) (l1.len + 1) l1
        (DA_init junk (DA_deinit l2) (l1.len - splitPoint l1.len index)) := by
  obtain ⟨hcl, hle⟩ := DA_split_clamp l1.len index hb hlo hhi
  have ht : toSizeT ((splitPoint l1.len index : Nat) : Int) = splitPoint l1.len index :=
    toSizeT_ofNat _ (by unfold SIZE_MOD INT_MAX at *; omega)
  have hsub : szSub l1.len (splitPoint l1.len index) = l1.len - splitPoint l1.len index :=
    szSub_eq _ _ hle (by unfold SIZE_MOD INT_MAX at *; omega)
  unfold DA_split
  simp only [hcl, ht, hsub]

/-- Function `DA_init` with a size of at least 1 within the range of `int` makes
a well-formed container. -/
theorem DA_init_WF (junk : Nat → Int) (l0 : DA) (n : Nat) (h1 : 1 ≤ n) (hn : n ≤ INT_MAX) :
    WF (DA_init junk l0 n) := by
  refine ⟨?_, ?_, h1, hn, hn⟩
  · simp [DA_init, malloc, intSlots_eq n (by omega)]
  · show 0 ≤ n; omega

/-- Function `DA_split` on a well-formed source and an index in the range of
`int`, when the source is not full or nothing has to move: the source keeps
its live elements before `splitPoint`, the destination receives the others in
order. -/
theorem DA_split_ok (junk : Nat → Int) (l1 l2 : DA) (index : Int) (hwf : WF l1)
    (hlo : -(INT_MAX : Int) - 1 ≤ index) (hhi : index ≤ (INT_MAX : Int))
    (hroom : l1.len < l1.size ∨ splitPoint l1.len index = l1.len) :
    ∃ a b, DA_split junk l1 l2 index = .ok (a, b) ∧
      elems a = (elems l1).take (splitPoint l1.len index) ∧
      elems b = (elems l1).drop (splitPoint l1.len index) ∧
      a.len = splitPoint l1.len index ∧ b.len = l1.len - splitPoint l1.len index ∧
      b.len ≤ b.heap.length ∧ WF a ∧ a.inc = l1.inc := by
  have hwfb := hwf
  obtain ⟨hh, hl, hi1, hs, hi⟩ := hwf
  obtain ⟨_, hle⟩ := DA_split_clamp l1.len index (by omega) hlo hhi
  have heq := DA_split_eq junk l1 l2 index (by omega) hlo hhi
  have hlen := elems_length l1 (by omega)
  generalize splitPoint l1.len index = c at *
  by_cases hc : c = l1.len
  · subst hc
    have ht : toSizeT ((l1.len : Nat) : Int) = l1.len :=
      toSizeT_ofNat _ (by unfold SIZE_MOD INT_MAX at *; omega)
    refine ⟨l1, DA_init junk (DA_deinit l2) (l1.len - l1.len), ?_, ?_, ?_, rfl, ?_, ?_,
      hwfb, rfl⟩
    · rw [heq]
      unfold DA_split_loop
      rw [ht, if_neg (by omega)]; rfl
    · rw [List.take_of_length_le (by omega)]
    · rw [List.drop_eq_nil_iff.mpr (by omega)]; rfl
    · show 0 = _; omega
    · show 0 ≤ _; omega
  · have hroom2 : l1.len < l1.size := by
      rcases hroom with h | h
      · exact h
      · exact absurd h hc
    have hwf2 : WF (DA_init junk (DA_deinit l2) (l1.len - c)) :=
      DA_init_WF junk _ _ (by omega) (by omega)
    obtain ⟨a, b, hr, hea, heb, hla, hlb, hwfa, hinca, hwfbb⟩ :=
      DA_split_loop_ok junk c (l1.len - c) (l1.len + 1) l1
        (DA_init junk (DA_deinit l2) (l1.len - c)) hwfb hroom2 (by omega) (by omega) hwf2
        (by show 0 + (l1.len - c) ≤ l1.len - c; omega)
        (by show l1.len - c ≤ 0 + (l1.len - c); omega)
    refine ⟨a, b, ?_, hea, ?_, hla, ?_, ?_, hwfa, hinca⟩
    · rw [heq]; exact hr
    · rw [heb]; simp [elems, DA_init]
    · rw [hlb]; show 0 + (l1.len - c) = _; omega
    · obtain ⟨x, y, _⟩ := hwfbb; omega

/-- Function `DA_split` on a well-formed source that is full, at an index below
its length: the first `DA_delete` reads `heap[len]`, outside the allocation. -/
theorem DA_split_full_oob (junk : Nat → Int) (l1 l2 : DA) (k : Nat) (hwf : WF l1)
    (hfull : l1.len = l1.size) (hk : k < l1.len) :
    DA_split junk l1 l2 (k : Int) = .oob := by
  have hwfb := hwf
  obtain ⟨hh, hl, hi1, hs, hi⟩ := hwf
  have hsp : splitPoint l1.len (k : Int) = k := by
    unfold splitPoint
    rw [if_neg (by omega)]
    simp
  have ht : toSizeT (k : Int) = k :=
    toSizeT_ofNat _ (by unfold SIZE_MOD INT_MAX at *; omega)
  rw [DA_split_eq junk l1 l2 (k : Int) (by omega) (by omega) (by omega), hsp]
  obtain ⟨b1, hb1, _⟩ := DA_append_ok junk (DA_init junk (DA_deinit l2) (l1.len - k))
    ((elems l1).get ⟨k, by rw [elems_length l1 (by omega)]; exact hk⟩)
    (DA_init_WF junk _ _ (by omega) (by omega))
  unfold DA_split_loop
  rw [ht, if_pos hk, rdI_ofNat, elems_getElem l1 k (by omega) hk]
  simp only [Run.ok_bind]
  rw [hb1]
  simp only [Run.ok_bind]
  rw [DA_delete_full_oob junk l1 k hwfb hfull hk]
  rfl

/-! ## `DA_sort`: the accesses stay among the live slots -/

/-- A read that succeeds on a buffer gives the same value on a longer one. -/
theorem rdI_append (h t : List Int) (i v : Int) (hr : rdI h i = .ok v) :
    rdI (h ++ t) i = .ok v := by
  unfold rdI at hr ⊢
  by_cases hn : i < 0
  · rw [if_pos hn] at hr; cases hr
  · rw [if_neg hn] at hr ⊢
    unfold rd at hr ⊢
    cases hg : h.get? i.toNat with
    | none => rw [hg] at hr; cases hr
    | some w =>
      rw [hg] at hr
      have hlt : i.toNat < h.length := by
        rw [List.get?_eq_getElem?] at hg
        exact (List.getElem?_eq_some_iff.mp hg).1
      rw [List.get?_eq_getElem?, List.getElem?_append_left hlt, ← List.get?_eq_getElem?, hg]
      exact hr

/-- A write that succeeds on a buffer does the same on a longer one, leaves
the added slots alone and keeps the number of slots. -/
theorem wrI_append (h t : List Int) (i v : Int) (h2 : List Int) (hw : wrI h i v = .ok h2) :
    wrI (h ++ t) i v = .ok (h2 ++ t) ∧ h2.length = h.length := by
  unfold wrI at hw ⊢
  by_cases hn : i < 0
  · rw [if_pos hn] at hw; cases hw
  · rw [if_neg hn] at hw ⊢
    unfold wr at hw ⊢
    by_cases hlt : i.toNat < h.length
    · rw [if_pos hlt] at hw
      rw [if_pos (by simp; omega)]
      simp only [Run.ok.injEq] at hw
      rw [← hw, List.set_append_left _ _ hlt]
      exact ⟨rfl, by simp⟩
    · rw [if_neg hlt] at hw; cases hw

/-- The second half of the loop body of `DA_sort`, when it returns on a buffer,
does the same on a longer buffer and leaves the added slots alone. -/
theorem DA_sort_body_append (h t : List Int) (i : Int) (r : Bool)
    (h2 : List Int) (i2 : Int) (r2 : Bool)
    (hb : DA_sort_body h i r = .ok (h2, i2, r2)) :
    DA_sort_body (h ++ t) i r = .ok (h2 ++ t, i2, r2) := by
  unfold DA_sort_body at hb ⊢
  cases ha : rdI h i with
  | ok a =>
    rw [ha] at hb
    rw [rdI_append h t i a ha]
    simp only [Run.ok_bind] at hb ⊢
    cases hbb : rdI h (i - 1) with
    | ok b =>
      rw [hbb] at hb
      rw [rdI_append h t (i - 1) b hbb]
      simp only [Run.ok_bind] at hb ⊢
      by_cases hlt : a < b
      · rw [if_pos hlt] at hb ⊢
        cases hw1 : wrI h i b with
        | ok h3 =>
          rw [hw1] at hb
          rw [(wrI_append h t i b h3 hw1).1]
          simp only [Run.ok_bind] at hb ⊢
          cases hw2 : wrI h3 (i - 1) a with
          | ok h4 =>
            rw [hw2] at hb
            rw [(wrI_append h3 t (i - 1) a h4 hw2).1]
            simp only [Run.ok_bind, Run.pure_eq, Run.ok.injEq, Prod.mk.injEq] at hb ⊢
            exact ⟨by rw [hb.1], hb.2⟩
          | oob => rw [hw2] at hb; simp at hb
          | fuel => rw [hw2] at hb; simp at hb
        | oob => rw [hw1] at hb; simp at hb
        | fuel => rw [hw1] at hb; simp at hb
      · rw [if_neg hlt] at hb ⊢
        simp only [Run.pure_eq, Run.ok.injEq, Prod.mk.injEq] at hb ⊢
        exact ⟨by rw [hb.1], hb.2⟩
    | oob => rw [hbb] at hb; simp at hb
    | fuel => rw [hbb] at hb; simp at hb
  | oob => rw [ha] at hb; simp at hb
  | fuel => rw [ha] at hb; simp at hb

/-- The loop of `DA_sort`, when it returns on a buffer, does the same on a
longer buffer and leaves the added slots alone. -/
theorem DA_sort_loop_append (len : Nat) (t : List Int) :
    ∀ (fuel : Nat) (h : List Int) (i : Int) (r : Bool) (h2 : List Int),
      DA_sort_loop len fuel h i r = .ok h2 →
      DA_sort_loop len fuel (h ++ t) i r = .ok (h2 ++ t) := by
  intro fuel
  induction fuel with
  | zero =>
    intro h i r h2 hr
    unfold DA_sort_loop at hr
    cases hr
  | succ f ih =>
    intro h i r h2 hr
    unfold DA_sort_loop at hr ⊢
    by_cases hend : toSizeT i > szSub len 1
    · rw [if_pos hend] at hr ⊢
      cases r with
      | false =>
        simp only [Bool.false_eq_true, if_false, Run.pure_eq, Run.ok.injEq] at hr ⊢
        rw [hr]
      | true =>
        simp only [if_true] at hr ⊢
        cases hb : DA_sort_body h 1 false with
        | ok p =>
          obtain ⟨h3, i3, r3⟩ := p
          rw [hb] at hr
          rw [DA_sort_body_append h t 1 false h3 i3 r3 hb]
          simp only [Run.ok_bind] at hr ⊢
          exact ih h3 i3 r3 h2 hr
        | oob => rw [hb] at hr; simp at hr
        | fuel => rw [hb] at hr; simp at hr
    · rw [if_neg hend] at hr ⊢
      cases hb : DA_sort_body h i r with
      | ok p =>
        obtain ⟨h3, i3, r3⟩ := p
        rw [hb] at hr
        rw [DA_sort_body_append h t i r h3 i3 r3 hb]
        simp only [Run.ok_bind] at hr ⊢
        exact ih h3 i3 r3 h2 hr
      | oob => rw [hb] at hr; simp at hr
      | fuel => rw [hb] at hr; simp at hr

/-! ## Sequences of calls -/

/-- Function `DA_delete` at the index `len`: the call is accepted, nothing is
shifted and `len` is decremented on `size_t`. -/
theorem DA_delete_at_len (junk : Nat → Int) (list : DA) (hb : list.len ≤ INT_MAX) :
    DA_delete junk list (list.len : Int) =
      .ok (DA_check junk { list with len := szSub list.len 1 }, 0) := by
  have ht : toSizeT (list.len : Int) = list.len :=
    toSizeT_ofNat _ (by unfold SIZE_MOD INT_MAX at *; omega)
  unfold DA_delete DA_outofbounds DA_delete_loop
  simp [ht]

/-- From `DA_init(1)`, the call `DA_delete(0)` returns and leaves the length
`2^64 - 1` and the capacity 0. -/
theorem runOps_delete_empty (junk : Nat → Int) (l0 : DA) :
    ∃ list, runOps junk (DA_init junk l0 1) [Op.delete 0] = .ok list ∧
      list.len = 18446744073709551615 ∧ list.size = 0 := by
  have hd := DA_delete_at_len junk (DA_init junk l0 1) (by show 0 ≤ INT_MAX; omega)
  have hd2 : DA_delete junk (DA_init junk l0 1) 0 =
      .ok (DA_check junk { DA_init junk l0 1 with len := szSub 0 1 }, 0) := hd
  refine ⟨DA_check junk { DA_init junk l0 1 with len := szSub 0 1 }, ?_, ?_, ?_⟩
  · simp only [runOps, applyOp, hd2, Run.ok_bind, Run.pure_eq]
  · have h1 : szSub 0 1 = 18446744073709551615 := by decide
    rw [DA_check_len]; exact h1
  · have h1 : szSub 0 1 = 18446744073709551615 := by decide
    have h2 : szAdd 18446744073709551615 1 = 0 := by decide
    have h3 : szSub 1 1 = 0 := by decide
    unfold DA_check
    simp only [DA_init, h1, h2, h3]
    rw [if_neg (by omega), if_pos (by omega)]

/-- From `DA_init(1)`, the calls `DA_append(5)` and `DA_insert(0, 7)`: the
insert finds the buffer full and writes outside it. -/
theorem runOps_insert_full (junk : Nat → Int) (l0 : DA) :
    runOps junk (DA_init junk l0 1) [Op.append 5, Op.insert 0 7] = .oob := by
  have hwf : WF (DA_init junk l0 1) := DA_init_WF junk l0 1 (by omega) (by decide)
  obtain ⟨l1, h1, _, hl1, hi1, hh1, hle1, hs1⟩ := DA_append_ok junk (DA_init junk l0 1) 5 hwf
  have hlen : l1.len = 1 := hl1
  have hinc : l1.inc = 1 := hi1
  have hsz : l1.size = 1 := by
    rw [hs1]
    show (if (1 : Nat) = 0 then 1 + 1 else if 0 + 1 < 1 then 1 - 1 else 1) = 1
    simp
  have hwf1 : WF l1 := ⟨hh1, hle1, by omega, by rw [hsz]; decide, by rw [hinc]; decide⟩
  have hins := DA_insert_full_oob junk l1 0 7 hwf1 (by omega) (by rw [hsz]; decide) (by omega)
  have hins2 : DA_insert junk l1 0 7 = .oob := hins
  simp only [runOps, applyOp, h1, Run.ok_bind, Run.pure_eq, hins2, Run.oob_bind]

/-- A chain of appends from a well-formed container of growth step `s` whose
capacity is a multiple of `s` within one step of its length: besides what
`appendAll_ok` says, the container stays so. -/
theorem appendAll_shape (junk : Nat → Int) (s : Nat) :
    ∀ (vs : List Int) (list : DA), WF list → list.inc = s → s ∣ list.size →
      list.size ≤ list.len + s → list.len + vs.length + s ≤ INT_MAX + 1 →
      ∃ list2, appendAll junk list vs =
          .ok (list2, (List.range' list.len vs.length).map Int.ofNat) ∧
        elems list2 = elems list ++ vs ∧ list2.len = list.len + vs.length ∧
        WF list2 ∧ list2.inc = s ∧ s ∣ list2.size ∧ list2.size ≤ list2.len + s := by
  intro vs
  induction vs with
  | nil =>
    intro list hwf hi hd hsz _
    exact ⟨list, by simp [appendAll], by simp, by simp, hwf, hi, hd, hsz⟩
  | cons v vs ih =>
    intro list hwf hi hd hsz hb
    simp only [List.length_cons] at hb
    obtain ⟨l1, h1, he1, hl1, hi1, hh1, hle1, hs1⟩ := DA_append_ok junk list v hwf
    obtain ⟨hh, hl, hinc1, hs, hinc⟩ := hwf
    have hs1b : (list.size = list.len ∧ l1.size = list.size + s) ∨ l1.size = list.size := by
      rw [hs1, hi]
      split_ifs with c1 c2
      · left; exact ⟨c1, rfl⟩
      · omega
      · right; rfl
    have hsz1 : l1.size ≤ l1.len + s := by
      rcases hs1b with ⟨h0, h⟩ | h <;> omega
    have hd1 : s ∣ l1.size := by
      rcases hs1b with ⟨_, h⟩ | h
      · rw [h]; exact Nat.dvd_add hd (Nat.dvd_refl s)
      · rw [h]; exact hd
    have hsmax : l1.size ≤ INT_MAX := by
      rcases hs1b with ⟨h0, h⟩ | h <;> omega
    have hwf1 : WF l1 := ⟨hh1, hle1, by omega, hsmax, by omega⟩
    obtain ⟨l2, h2, he2, hl2, hwf2, hi2, hd2, hsz2⟩ :=
      ih l1 hwf1 (by rw [hi1, hi]) hd1 hsz1 (by rw [hl1]; omega)
    refine ⟨l2, ?_, ?_, ?_, hwf2, hi2, hd2, hsz2⟩
    · simp only [appendAll, h1, Run.ok_bind, h2, hl1]
      simp [List.range']
    · rw [he2, he1]; simp
    · rw [hl2, hl1]; simp; omega

/-- The shift of `DA_insert` keeps the number of slots. -/
theorem DA_insert_loop_length :
    ∀ (fuel : Nat) (heap : List Int) (i index : Int) (heap2 : List Int),
      DA_insert_loop fuel heap i index = .ok heap2 → heap2.length = heap.length := by
  intro fuel
  induction fuel with
  | zero =>
    intro heap i index heap2 h
    unfold DA_insert_loop at h
    cases h
  | succ f ih =>
    intro heap i index heap2 h
    unfold DA_insert_loop at h
    by_cases hc : i > index
    · rw [if_pos hc] at h
      cases hr : rdI heap (i - 1) with
      | ok v =>
        rw [hr] at h
        simp only [Run.ok_bind] at h
        cases hw : wrI heap i v with
        | ok heap3 =>
          rw [hw] at h
          simp only [Run.ok_bind] at h
          rw [ih heap3 (i - 1) index heap2 h, (wrI_append heap [] i v heap3 hw).2]
        | oob => rw [hw] at h; simp at h
        | fuel => rw [hw] at h; simp at h
      | oob => rw [hr] at h; simp at h
      | fuel => rw [hr] at h; simp at h
    · rw [if_neg hc] at h
      simp only [Run.pure_eq, Run.ok.injEq] at h
      rw [h]

/-- An accepted `DA_insert` that returns leaves the capacity and the number of
slots that `DA_check` made after `len++`, and the growth step as it was. -/
theorem DA_insert_fields (junk : Nat → Int) (list : DA) (index v : Int) (list2 : DA)
    (r : Int) (hacc : ¬ DA_outofbounds list index = true)
    (h : DA_insert junk list index v = .ok (list2, r)) :
    list2.size = (DA_check junk { list with len := szAdd list.len 1 }).size ∧
      list2.inc = list.inc ∧
      list2.heap.length = (DA_check junk { list with len := szAdd list.len 1 }).heap.length := by
  unfold DA_insert at h
  rw [if_neg hacc] at h
  simp only at h
  cases hloop : DA_insert_loop ((DA_check junk { list with len := szAdd list.len 1 }).len + 1)
      (DA_check junk { list with len := szAdd list.len 1 }).heap
      (toCInt (DA_check junk { list with len := szAdd list.len 1 }).len) index with
  | ok heap2 =>
    rw [hloop] at h
    simp only [Run.ok_bind] at h
    cases hw : wrI heap2 index v with
    | ok heap3 =>
      rw [hw] at h
      simp only [Run.ok_bind, Run.pure_eq, Run.ok.injEq, Prod.mk.injEq] at h
      rw [← h.1]
      refine ⟨rfl, DA_check_inc _ _, ?_⟩
      show heap3.length = _
      rw [(wrI_append heap2 [] index v heap3 hw).2,
        DA_insert_loop_length _ _ _ _ _ hloop]
    | oob => rw [hw] at h; simp at h
    | fuel => rw [hw] at h; simp at h
  | oob => rw [hloop] at h; simp at h
  | fuel => rw [hloop] at h; simp at h

/-! ## Reachability of the containers used as concrete inputs -/

/-- The full one-slot container `[5]` is the result of `DA_init(1)` followed by
`DA_append(5)`. -/
theorem reach_full_one :
    DA_append (fun _ => 0) (DA_init (fun _ => 0) ⟨[], 0, 0, 0⟩ 1) 5 =
      .ok (⟨[5], 1, 1, 1⟩, 0) := by
  decide

/-- The empty container with the stale slot 5 is the result of `DA_init(1)`,
`DA_append(5)` and `DA_pop()`, which returns 5. -/
theorem reach_stale_one :
    DA_pop (fun _ => 0) ⟨[5], 1, 1, 1⟩ = .ok (⟨[5], 1, 1, 0⟩, 5) := by
  decide

/-- The full two-slot container `[1, 2]` is the result of `DA_init(2)` followed
by `DA_append(1)` and `DA_append(2)`. -/
theorem reach_full_two :
    appendAll (fun _ => 0) (DA_init (fun _ => 0) ⟨[], 0, 0, 0⟩ 2) [1, 2] =
      .ok (⟨[1, 2], 2, 2, 2⟩, [0, 1]) := by
  decide

/-! ## Claims -/

/-- C1: for every growth step `s ≥ 1` and every list of values `vs` (within the
range of `int`): starting from `DA_init(s)` and appending the values in order,
the `k`-th call returns `k`, the final length is the number of values, and
`DA_get(i)` returns the `i`-th value for every `i` below that number. -/
theorem C1_append_get (junk : Nat → Int) (l0 : DA) (s : Nat) (vs : List Int)
    (hs : 1 ≤ s) (hb : s + vs.length ≤ INT_MAX) :
    ∃ list, appendAll junk (DA_init junk l0 s) vs =
        .ok (list, (List.range vs.length).map Int.ofNat) ∧
      list.len = vs.length ∧
      ∀ (i : Nat) (h : i < vs.length), DA_get list (i : Int) = .ok (vs.get ⟨i, h⟩) := by
  have hlen : (DA_init junk l0 s).heap.length = s := by
    simp [DA_init, malloc, intSlots_eq s (by omega)]
  obtain ⟨list, h1, he, hl, hle⟩ := appendAll_ok junk s hs vs (DA_init junk l0 s)
    hlen (by simp [DA_init]) rfl (by simp [DA_init]) (by simp [DA_init]; omega)
  have he2 : elems list = vs := by
    rw [he]; simp [elems, DA_init]
  refine ⟨list, ?_, ?_, ?_⟩
  · rw [h1]; simp [DA_init, List.range_eq_range']
  · rw [hl]; simp [DA_init]
  · intro i h
    have hl2 : list.len ≤ INT_MAX + 1 := by
      rw [hl]; simp [DA_init]; omega
    have h2 : i < (elems list).length := by rw [he2]; exact h
    rw [DA_get_ok list i hle hl2 h2]
    simp [he2]

/-- C1 at growth step 3 and the values 1, 2, 3, 4, 5. -/
theorem C1_append_get_witness :
    ∃ list, appendAll (fun _ => 0) (DA_init (fun _ => 0) ⟨[], 0, 0, 0⟩ 3) [1, 2, 3, 4, 5] =
        .ok (list, (List.range [1, 2, 3, 4, 5].length).map Int.ofNat) ∧
      list.len = [1, 2, 3, 4, 5].length ∧
      ∀ (i : Nat) (h : i < [1, 2, 3, 4, 5].length),
        DA_get list (i : Int) = .ok (([1, 2, 3, 4, 5] : List Int).get ⟨i, h⟩) :=
  C1_append_get (fun _ => 0) ⟨[], 0, 0, 0⟩ 3 [1, 2, 3, 4, 5] (by decide) (by decide)

/-- C2 (holds when the buffer has room, fails when it is full): on a
well-formed container and an index `k ≤ len`, `DA_insert(k, v)` with
`len < size` returns 0, adds one to the length and puts `v` at `k`, the
elements formerly at `[0, k)` unchanged and those formerly at `[k, len)` now at
`[k+1, len+1)` in order; with `len = size` it overruns the buffer instead of
growing it. -/
theorem C2_insert (junk : Nat → Int) (list : DA) (k : Nat) (v : Int)
    (h : WF list) (hk : k ≤ list.len) :
    (list.len < list.size → ∃ list2, DA_insert junk list (k : Int) v = .ok (list2, 0) ∧
      list2.len = list.len + 1 ∧
      elems list2 = (elems list).take k ++ v :: (elems list).drop k) ∧
    (list.len = list.size → list.size < INT_MAX →
      DA_insert junk list (k : Int) v = .oob) := by
  constructor
  · intro hroom
    obtain ⟨list2, h1, h2, _, h4⟩ := DA_insert_ok junk list k v h hroom hk
    exact ⟨list2, h1, h2, h4⟩
  · intro hfull hmax
    exact DA_insert_full_oob junk list k v h hfull hmax hk

/-- C2 at the container reached by `DA_init(1)` and `DA_append(5)`: inserting
at index 0 overruns the one-slot buffer. -/
theorem C2_insert_witness :
    WF ⟨[5], 1, 1, 1⟩ ∧ 0 ≤ (⟨[5], 1, 1, 1⟩ : DA).len ∧
      (⟨[5], 1, 1, 1⟩ : DA).len = (⟨[5], 1, 1, 1⟩ : DA).size ∧
      DA_insert (fun _ => 0) ⟨[5], 1, 1, 1⟩ ((0 : Nat) : Int) 7 = .oob :=
  ⟨by decide, by decide, rfl,
    (C2_insert (fun _ => 0) ⟨[5], 1, 1, 1⟩ 0 7 (by decide) (by decide)).2 rfl (by decide)⟩

/-- C3 (holds when the buffer has room, fails when it is full): on a
well-formed container and an index `k < len`, `DA_delete(k)` with `len < size`
returns 0, takes one from the length and leaves the original sequence without
the element at `k`; with `len = size` the shift `heap[i] = heap[i+1]` runs up
to `i = len-1` and reads `heap[len]`, one slot past the allocation. -/
theorem C3_delete (junk : Nat → Int) (list : DA) (k : Nat)
    (h : WF list) (hk : k < list.len) :
    (list.len < list.size → ∃ list2, DA_delete junk list (k : Int) = .ok (list2, 0) ∧
      list2.len = list.len - 1 ∧
      elems list2 = (elems list).take k ++ (elems list).drop (k + 1)) ∧
    (list.len = list.size → DA_delete junk list (k : Int) = .oob) := by
  constructor
  · intro hroom
    obtain ⟨list2, h1, h2, _, _, h5⟩ := DA_delete_ok junk list k h hroom hk
    exact ⟨list2, h1, h2, h5⟩
  · intro hfull
    exact DA_delete_full_oob junk list k h hfull hk

/-- C3 at the container reached by `DA_init(1)` and `DA_append(5)`: deleting
index 0 reads `heap[1]` of a one-slot buffer. -/
theorem C3_delete_witness :
    WF ⟨[5], 1, 1, 1⟩ ∧ 0 < (⟨[5], 1, 1, 1⟩ : DA).len ∧
      (⟨[5], 1, 1, 1⟩ : DA).len = (⟨[5], 1, 1, 1⟩ : DA).size ∧
      DA_delete (fun _ => 0) ⟨[5], 1, 1, 1⟩ ((0 : Nat) : Int) = .oob :=
  ⟨by decide, by decide, rfl,
    (C3_delete (fun _ => 0) ⟨[5], 1, 1, 1⟩ 0 (by decide) (by decide)).2 rfl⟩

/-- C4 (holds except at `index == len`): on a container whose live elements
are inside the buffer and an index in the range of `int`, `DA_get` returns the
element at a live index and -1 at a negative index or an index above `len`;
but `DA_outofbounds` tests `len < index`, so at the index `len` it does not
return the sentinel: it reads the slot `heap[len]`, which is stale when
`len < size` and outside the allocation when `len = size`. -/
theorem C4_get (list : DA) (index : Int) (hl : list.len ≤ list.heap.length)
    (hb : list.len ≤ INT_MAX)
    (hlo : -(INT_MAX : Int) - 1 ≤ index) (hhi : index ≤ (INT_MAX : Int)) :
    (0 ≤ index → index < (list.len : Int) →
      ∃ v, DA_get list index = .ok v ∧ (elems list).get? index.toNat = some v) ∧
    (index < 0 ∨ (list.len : Int) < index → DA_get list index = .ok (-1)) ∧
    (index = (list.len : Int) → DA_get list index = rd list.heap list.len) := by
  refine ⟨?_, ?_, ?_⟩
  · intro h0 h1
    obtain ⟨m, rfl⟩ : ∃ m : Nat, index = (m : Int) := ⟨index.toNat, by omega⟩
    have hm : m < (elems list).length := by rw [elems_length list hl]; omega
    exact ⟨_, DA_get_ok list m hl (by omega) hm, by simp [List.getElem?_eq_getElem hm]⟩
  · intro hc
    have := (DA_outofbounds_iff list index hb hlo hhi).mpr (by tauto)
    unfold DA_get
    rw [if_pos this]; rfl
  · intro he
    have ht : toSizeT (list.len : Int) = list.len :=
      toSizeT_ofNat _ (by unfold SIZE_MOD INT_MAX at *; omega)
    subst he
    unfold DA_get DA_outofbounds
    simp [ht, rdI_ofNat]

/-- C4 at the container reached by `DA_init(1)`, `DA_append(5)`, `DA_pop()`:
it is empty, and `DA_get(0)` returns the stale 5 instead of the sentinel. -/
theorem C4_get_witness :
    (⟨[5], 1, 1, 0⟩ : DA).len ≤ (⟨[5], 1, 1, 0⟩ : DA).heap.length ∧
      (0 : Int) = ((⟨[5], 1, 1, 0⟩ : DA).len : Int) ∧ DA_get ⟨[5], 1, 1, 0⟩ 0 = .ok 5 :=
  ⟨by decide, rfl,
    (C4_get ⟨[5], 1, 1, 0⟩ 0 (by decide) (by decide) (by decide) (by decide)).2.2 rfl⟩

/-- C5 (the code fails the claim at `index == len`): on a container with `len`
in the range of `int` and an index in that range, `DA_delete` returns -1 and
leaves the container unchanged at a negative index or an index above `len`;
but `DA_outofbounds` tests `len < index`, so the index `len` is accepted:
`DA_delete` returns 0 and decrements `len` on `size_t`, which drops the last
element, or wraps around to `2^64 - 1` on an empty container. -/
theorem C5_delete_at_len (junk : Nat → Int) (list : DA) (index : Int)
    (hb : list.len ≤ INT_MAX)
    (hlo : -(INT_MAX : Int) - 1 ≤ index) (hhi : index ≤ (INT_MAX : Int)) :
    (index < 0 ∨ (list.len : Int) < index → DA_delete junk list index = .ok (list, -1)) ∧
    (index = (list.len : Int) → ∃ list2, DA_delete junk list index = .ok (list2, 0) ∧
      list2.len = szSub list.len 1) := by
  constructor
  · intro hc
    have := (DA_outofbounds_iff list index hb hlo hhi).mpr (by tauto)
    unfold DA_delete
    rw [if_pos this]; rfl
  · intro he
    subst he
    have ht : toSizeT (list.len : Int) = list.len :=
      toSizeT_ofNat _ (by unfold SIZE_MOD INT_MAX at *; omega)
    refine ⟨DA_check junk { list with len := szSub list.len 1 }, ?_, ?_⟩
    · unfold DA_delete DA_outofbounds DA_delete_loop
      simp [ht]
    · rw [DA_check_len]

/-- C5 at the empty container `DA_init(1)`: `DA_delete(0)` returns 0 and
leaves `len = 2^64 - 1`. -/
theorem C5_delete_at_len_witness :
    (0 : Int) = ((DA_init (fun _ => 0) ⟨[], 0, 0, 0⟩ 1).len : Int) ∧
      ∃ list2, DA_delete (fun _ => 0) (DA_init (fun _ => 0) ⟨[], 0, 0, 0⟩ 1) 0 =
          .ok (list2, 0) ∧
        list2.len = szSub (DA_init (fun _ => 0) ⟨[], 0, 0, 0⟩ 1).len 1 :=
  ⟨rfl, (C5_delete_at_len (fun _ => 0) (DA_init (fun _ => 0) ⟨[], 0, 0, 0⟩ 1) 0
    (by decide) (by decide) (by decide)).2 rfl⟩

/-- C5, the run on the empty container `DA_init(1)` in full. -/
theorem C5_delete_empty_wraps :
    DA_delete (fun _ => 0) (DA_init (fun _ => 0) ⟨[], 0, 0, 0⟩ 1) 0 =
      .ok (⟨[], 0, 1, 18446744073709551615⟩, 0) := by
  decide

/-- C6 (the return code is as claimed except on a full buffer): on a
well-formed container and an index in the range of `int`, `DA_insert` returns
-1 exactly when `index > len` or `index < 0`, and then leaves the container
unchanged; otherwise it returns 0 when `len < size`, but when `len = size` it
overruns the buffer and has no defined result. -/
theorem C6_insert_return (junk : Nat → Int) (list : DA) (index v : Int) (h : WF list)
    (hlo : -(INT_MAX : Int) - 1 ≤ index) (hhi : index ≤ (INT_MAX : Int)) :
    (DA_insert junk list index v = .ok (list, -1) ↔
      ((list.len : Int) < index ∨ index < 0)) ∧
    (∀ list2, DA_insert junk list index v = .ok (list2, -1) → list2 = list) ∧
    (¬ ((list.len : Int) < index ∨ index < 0) → list.len < list.size →
      ∃ list2, DA_insert junk list index v = .ok (list2, 0)) ∧
    (¬ ((list.len : Int) < index ∨ index < 0) → list.len = list.size →
      list.size < INT_MAX → DA_insert junk list index v = .oob) := by
  have hl : list.len ≤ INT_MAX := by
    obtain ⟨_, hl, _, hs, _⟩ := h; omega
  have hiff := DA_outofbounds_iff list index hl hlo hhi
  refine ⟨⟨?_, ?_⟩, ?_, ?_, ?_⟩
  · intro hr
    by_contra hc
    have h0 := DA_insert_accepted_ret junk list index v (by rw [hiff]; exact hc) list (-1) hr
    omega
  · intro hc
    exact DA_insert_rejected junk list index v (hiff.mpr hc)
  · intro list2 hr
    by_cases hc : DA_outofbounds list index = true
    · rw [DA_insert_rejected junk list index v hc] at hr
      simp only [Run.ok.injEq, Prod.mk.injEq] at hr
      exact hr.1.symm
    · have h0 := DA_insert_accepted_ret junk list index v hc list2 (-1) hr
      omega
  · intro hc hroom
    obtain ⟨m, rfl⟩ : ∃ m : Nat, index = (m : Int) := ⟨index.toNat, by omega⟩
    obtain ⟨list2, h1, _⟩ := DA_insert_ok junk list m v h hroom (by omega)
    exact ⟨list2, h1⟩
  · intro hc hfull hmax
    obtain ⟨m, rfl⟩ : ∃ m : Nat, index = (m : Int) := ⟨index.toNat, by omega⟩
    exact DA_insert_full_oob junk list m v h hfull hmax (by omega)

/-- C6 at the full container `[1, 2]` of capacity 2 and the accepted index 1:
the insert returns neither -1 nor 0. -/
theorem C6_insert_return_witness :
    WF ⟨[1, 2], 2, 2, 2⟩ ∧ ¬ (((⟨[1, 2], 2, 2, 2⟩ : DA).len : Int) < 1 ∨ (1 : Int) < 0) ∧
      DA_insert (fun _ => 0) ⟨[1, 2], 2, 2, 2⟩ 1 9 = .oob :=
  ⟨by decide, by decide,
    (C6_insert_return (fun _ => 0) ⟨[1, 2], 2, 2, 2⟩ 1 9 (by decide) (by decide)
      (by decide)).2.2.2 (by decide) rfl (by decide)⟩

/-- C7: on a well-formed container of length 0, `DA_pop` returns -1 and leaves
the container as it is; on one of length `n ≥ 1` it returns the last element,
leaves the length `n - 1` and the other elements in place. -/
theorem C7_pop (junk : Nat → Int) (list : DA) (h : WF list) :
    (list.len = 0 → DA_pop junk list = .ok (list, -1)) ∧
    (1 ≤ list.len → ∃ list2 v, DA_pop junk list = .ok (list2, v) ∧
      (elems list).get? (list.len - 1) = some v ∧
      list2.len = list.len - 1 ∧
      elems list2 = (elems list).take (list.len - 1) ∧
      elems list = elems list2 ++ [v]) := by
  obtain ⟨hh, hl, hi1, hs, hi⟩ := h
  constructor
  · intro h0
    unfold DA_pop
    simp [h0]
  · intro h1
    have hsub : szSub list.len 1 = list.len - 1 :=
      szSub_eq _ _ h1 (by unfold SIZE_MOD INT_MAX at *; omega)
    have ht : toSizeT ((list.len - 1 : Nat) : Int) = list.len - 1 :=
      toSizeT_ofNat _ (by unfold SIZE_MOD INT_MAX at *; omega)
    have hlt : list.len - 1 < list.heap.length := by omega
    have hsz := DA_check_size junk { list with len := list.len - 1 } hs hi
      (show list.len - 1 ≤ INT_MAX + 1 by omega)
    have htk := DA_check_take junk { list with len := list.len - 1 } (list.len - 1)
      hh hs hi (show list.len - 1 ≤ INT_MAX + 1 by omega)
      (show list.len - 1 ≤ list.size by omega)
      (by rw [hsz]; dsimp only; split_ifs <;> omega)
    have htk2 : List.take (list.len - 1)
        (DA_check junk { list with len := list.len - 1 }).heap =
        List.take (list.len - 1) list.heap := htk
    have hlast : (elems list).get? (list.len - 1) = some (list.heap.get ⟨list.len - 1, hlt⟩) := by
      unfold elems
      rw [List.get?_eq_getElem?, List.getElem?_take_of_lt (by omega)]
      simp [List.getElem?_eq_getElem hlt]
    have he2 : elems (DA_check junk { list with len := list.len - 1 }) =
        (elems list).take (list.len - 1) := by
      unfold elems
      rw [DA_check_len]
      show List.take (list.len - 1) _ = _
      rw [htk2, List.take_take, Nat.min_eq_left (by omega)]
    refine ⟨DA_check junk { list with len := list.len - 1 },
      list.heap.get ⟨list.len - 1, hlt⟩, ?_, hlast, ?_, he2, ?_⟩
    · unfold DA_pop DA_get DA_outofbounds
      rw [if_neg (by omega)]
      simp only [hsub, Run.pure_eq]
      rw [toCInt_eq _ (by omega), ht, rdI_ofNat, rd_eq _ _ hlt]
      simp
    · rw [DA_check_len]
    · rw [he2]
      have hlen : (elems list).length = list.len := by
        unfold elems; simp; omega
      have hd : (elems list).drop (list.len - 1) = [list.heap.get ⟨list.len - 1, hlt⟩] := by
        rw [List.get?_eq_getElem?, List.getElem?_eq_getElem (by omega)] at hlast
        simp only [Option.some.injEq] at hlast
        rw [List.drop_eq_getElem_cons (by omega), hlast, List.drop_eq_nil_iff.mpr (by omega)]
      rw [← hd, List.take_append_drop]

/-- C7 on the containers `[]` and `[3, 4]` of capacity 2. -/
theorem C7_pop_witness :
    ((⟨[3, 4], 2, 2, 0⟩ : DA).len = 0 →
        DA_pop (fun _ => 0) ⟨[3, 4], 2, 2, 0⟩ = .ok (⟨[3, 4], 2, 2, 0⟩, -1)) ∧
    (1 ≤ (⟨[3, 4], 2, 2, 2⟩ : DA).len → ∃ list2 v,
      DA_pop (fun _ => 0) ⟨[3, 4], 2, 2, 2⟩ = .ok (list2, v) ∧
      (elems ⟨[3, 4], 2, 2, 2⟩).get? ((⟨[3, 4], 2, 2, 2⟩ : DA).len - 1) = some v ∧
      list2.len = (⟨[3, 4], 2, 2, 2⟩ : DA).len - 1 ∧
      elems list2 = (elems ⟨[3, 4], 2, 2, 2⟩).take ((⟨[3, 4], 2, 2, 2⟩ : DA).len - 1) ∧
      elems ⟨[3, 4], 2, 2, 2⟩ = elems list2 ++ [v]) :=
  ⟨(C7_pop (fun _ => 0) ⟨[3, 4], 2, 2, 0⟩ (by decide)).1,
   (C7_pop (fun _ => 0) ⟨[3, 4], 2, 2, 2⟩ (by decide)).2⟩

/-- C8 (holds when the buffer has room, fails when it is full): on a
well-formed container with `len < size`, `DA_remove(v)` leaves the original
sequence with every occurrence of `v` filtered out, so that `DA_count(v)` is 0,
the length has gone down by the former `DA_count(v)` and `DA_count(w)` is
unchanged for `w ≠ v`; with `len = size` and `v` among the elements, its first
`DA_delete` reads `heap[len]`, one slot past the allocation. -/
theorem C8_remove (junk : Nat → Int) (list : DA) (v : Int) (h : WF list) :
    (list.len < list.size → ∃ list2, DA_remove junk list v = .ok list2 ∧
      elems list2 = (elems list).filter (fun x => decide (x ≠ v)) ∧
      DA_count list2 v = .ok 0 ∧
      (∃ c : Nat, DA_count list v = .ok (c : Int) ∧ list2.len + c = list.len) ∧
      ∀ w, w ≠ v → DA_count list2 w = DA_count list w) ∧
    (list.len = list.size → v ∈ elems list → DA_remove junk list v = .oob) := by
  have hwf := h
  obtain ⟨hh, hl, hi1, hs, hinc⟩ := h
  constructor
  · intro hroom
    obtain ⟨list2, h1, hle, hb, he⟩ :=
      DA_remove_loop_ok junk v list.len (list.len + 1) list 0 hwf hroom (by omega) (by omega)
    simp only [List.take_zero, List.nil_append, List.drop_zero] at he
    have hlen := elems_length list (by omega)
    have hlen2 := elems_length list2 hle
    refine ⟨list2, h1, he, ?_, ⟨(elems list).count v, ?_, ?_⟩, ?_⟩
    · rw [DA_count_ok list2 v hle hb, he]
      have : List.count v (List.filter (fun x => decide (x ≠ v)) (elems list)) = 0 := by
        rw [List.count_eq_zero]
        intro hm
        have := (List.mem_filter.mp hm).2
        simp at this
      rw [this]; rfl
    · exact DA_count_ok list v (by omega) (by omega)
    · rw [← hlen2, ← hlen, he]
      have h1 := List.length_eq_countP_add_countP (fun x => decide (x ≠ v)) (elems list)
      rw [List.countP_eq_length_filter] at h1
      have h2 : List.countP (fun a => decide ¬(decide (a ≠ v)) = true) (elems list) =
          List.count v (elems list) := by
        rw [List.count_eq_countP]
        congr 1
        funext a
        by_cases ha : a = v <;> simp [ha]
      omega
    · intro w hw
      rw [DA_count_ok list2 w hle hb, DA_count_ok list w (by omega) (by omega), he,
        List.count_filter (by simpa using hw)]
  · intro hfull hmem
    obtain ⟨j, hj⟩ := List.getElem?_of_mem hmem
    exact DA_remove_loop_full junk v list hwf hfull list.len (list.len + 1) 0 (by omega)
      (by omega) ⟨j, by omega, hj⟩

/-- C8 at the container reached by `DA_init(1)` and `DA_append(5)`: removing
5 reads `heap[1]` of a one-slot buffer. -/
theorem C8_remove_witness :
    WF ⟨[5], 1, 1, 1⟩ ∧ (⟨[5], 1, 1, 1⟩ : DA).len = (⟨[5], 1, 1, 1⟩ : DA).size ∧
      (5 : Int) ∈ elems ⟨[5], 1, 1, 1⟩ ∧ DA_remove (fun _ => 0) ⟨[5], 1, 1, 1⟩ 5 = .oob :=
  ⟨by decide, rfl, by decide,
    (C8_remove (fun _ => 0) ⟨[5], 1, 1, 1⟩ 5 (by decide)).2 rfl (by decide)⟩

/-- C9 (holds for one element or more, fails for none): on a container of
length at least 1 whose live elements are inside the buffer, `DA_sort` returns
within `sortFuel len` iterations, the length is unchanged, the live elements
are in non-decreasing order and a permutation of the original ones, and
`DA_count(v)` is unchanged for every `v`; on a container of length 0 the test
`i > len-1` is made against `2^64 - 1`, and `DA_sort` never returns: it reads
`heap[1]`, `heap[0]`, ... until it leaves the buffer. -/
theorem C9_sort (list : DA) (fuel : Nat) (hl : list.len ≤ list.heap.length)
    (hb : list.len ≤ INT_MAX) :
    (1 ≤ list.len → sortFuel list.len ≤ fuel →
      ∃ list2, DA_sort fuel list = .ok list2 ∧ list2.len = list.len ∧
        List.Sorted (· ≤ ·) (elems list2) ∧ List.Perm (elems list2) (elems list) ∧
        ∀ v, DA_count list2 v = DA_count list v) ∧
    (list.len = 0 → ∀ list2, DA_sort fuel list ≠ .ok list2) := by
  constructor
  · intro h1 hf
    obtain ⟨heap2, hr, hl2, hs, hp⟩ := DA_sort_ok list fuel h1 hl hb hf
    refine ⟨{ list with heap := heap2 }, hr, rfl, hs, hp, ?_⟩
    intro v
    exact DA_count_perm { list with heap := heap2 } list v
      (show list.len ≤ heap2.length by omega) hb hl hb hp
  · intro h0 list2 hr
    unfold DA_sort at hr
    rw [h0] at hr
    cases hloop : DA_sort_loop 0 fuel list.heap 1 false with
    | ok heap2 => exact DA_sort_loop_empty fuel list.heap 1 false heap2 hloop
    | oob => rw [hloop] at hr; simp at hr
    | fuel => rw [hloop] at hr; simp at hr

/-- C9 at the empty container `DA_init(2)`: `DA_sort` does not return, whatever
the number of iterations allowed (here 1000). -/
theorem C9_sort_witness :
    (DA_init (fun _ => 0) ⟨[], 0, 0, 0⟩ 2).len ≤ (DA_init (fun _ => 0) ⟨[], 0, 0, 0⟩ 2).heap.length ∧
      (DA_init (fun _ => 0) ⟨[], 0, 0, 0⟩ 2).len = 0 ∧
      ∀ list2, DA_sort 1000 (DA_init (fun _ => 0) ⟨[], 0, 0, 0⟩ 2) ≠ .ok list2 :=
  ⟨by decide, rfl,
    (C9_sort (DA_init (fun _ => 0) ⟨[], 0, 0, 0⟩ 2) 1000 (by decide) (by decide)).2 rfl⟩

/-- C9, the run on the empty container `DA_init(2)`: after reading `heap[1]`
and `heap[0]` the scan reads `heap[2]`, outside the two-slot buffer. -/
theorem C9_sort_empty_oob :
    DA_sort 1000 (DA_init (fun _ => 0) ⟨[], 0, 0, 0⟩ 2) = .oob := by
  decide

/-- C10: on a container of length at least 1 whose live elements are inside
the buffer, `DA_sortback` (`DA_sort` then `DA_reverse`) returns within
`sortFuel len` iterations of the sort, the length is unchanged, the live
elements are in non-increasing order and a permutation of the original ones,
and `DA_count(v)` is unchanged for every `v`. -/
theorem C10_sortback (list : DA) (fuel : Nat) (h1 : 1 ≤ list.len)
    (hl : list.len ≤ list.heap.length) (hb : list.len ≤ INT_MAX)
    (hf : sortFuel list.len ≤ fuel) :
    ∃ list2, DA_sortback fuel list = .ok list2 ∧ list2.len = list.len ∧
      List.Sorted (· ≥ ·) (elems list2) ∧ List.Perm (elems list2) (elems list) ∧
      ∀ v, DA_count list2 v = DA_count list v := by
  obtain ⟨heap2, hr, hl2, hs, hp⟩ := DA_sort_ok list fuel h1 hl hb hf
  obtain ⟨heap3, hr3, hl3, ht3, _⟩ := DA_reverse_ok { list with heap := heap2 }
    (show list.len ≤ heap2.length by omega) hb
  have ht4 : heap3.take list.len = (heap2.take list.len).reverse := ht3
  have hperm : List.Perm (heap3.take list.len) (elems list) := by
    rw [ht4]
    exact (List.reverse_perm _).trans hp
  refine ⟨{ list with heap := heap3 }, ?_, rfl, ?_, hperm, ?_⟩
  · unfold DA_sortback
    rw [hr]
    exact hr3
  · show List.Pairwise (· ≥ ·) (heap3.take list.len)
    rw [ht4, List.pairwise_reverse]
    exact hs
  · intro v
    have hl4 : list.len ≤ heap3.length := by
      have : heap3.length = heap2.length := hl3
      omega
    exact DA_count_perm { list with heap := heap3 } list v hl4 hb hl hb hperm

/-- C10 on the container `[3, 1, 2]` of capacity 4. -/
theorem C10_sortback_witness :
    ∃ list2, DA_sortback (sortFuel 3) ⟨[3, 1, 2, 0], 4, 4, 3⟩ = .ok list2 ∧
      list2.len = (⟨[3, 1, 2, 0], 4, 4, 3⟩ : DA).len ∧
      List.Sorted (· ≥ ·) (elems list2) ∧
      List.Perm (elems list2) (elems ⟨[3, 1, 2, 0], 4, 4, 3⟩) ∧
      ∀ v, DA_count list2 v = DA_count ⟨[3, 1, 2, 0], 4, 4, 3⟩ v :=
  C10_sortback ⟨[3, 1, 2, 0], 4, 4, 3⟩ (sortFuel 3) (by decide) (by decide) (by decide)
    (Nat.le_refl _)

/-- C11: on a container whose live elements are inside the buffer (any length,
0 included), `DA_reverse` returns, the length, the capacity and the growth step
unchanged, the element formerly at index `i` at index `len - 1 - i` for every
`i < len`, and a second `DA_reverse` gives back the original container. -/
theorem C11_reverse (list : DA) (hl : list.len ≤ list.heap.length)
    (hb : list.len ≤ INT_MAX) :
    ∃ list2, DA_reverse list = .ok list2 ∧ list2.len = list.len ∧
      list2.size = list.size ∧ list2.inc = list.inc ∧
      elems list2 = (elems list).reverse ∧
      (∀ i, i < list.len → (elems list2)[list.len - 1 - i]? = (elems list)[i]?) ∧
      DA_reverse list2 = .ok list := by
  obtain ⟨heap2, hr, hl2, ht2, hd2⟩ := DA_reverse_ok list hl hb
  obtain ⟨heap3, hr3, hl3, ht3, hd3⟩ := DA_reverse_ok { list with heap := heap2 }
    (show list.len ≤ heap2.length by omega) hb
  have ht3b : heap3.take list.len = (heap2.take list.len).reverse := ht3
  have hd3b : heap3.drop list.len = heap2.drop list.len := hd3
  have hback : heap3 = list.heap := by
    rw [← List.take_append_drop list.len heap3, ht3b, hd3b, ht2, hd2, List.reverse_reverse,
      List.take_append_drop]
  have hlen := elems_length list hl
  refine ⟨{ list with heap := heap2 }, hr, rfl, rfl, rfl, ht2, ?_, ?_⟩
  · intro i hi
    show (heap2.take list.len)[list.len - 1 - i]? = _
    rw [ht2, List.getElem?_reverse (by unfold elems at hlen; omega)]
    unfold elems at hlen ⊢
    rw [hlen]
    congr 1
    omega
  · rw [hr3, hback]

/-- C11 on the container `[1, 2, 3]` of capacity 4 and on the empty one. -/
theorem C11_reverse_witness :
    (∃ list2, DA_reverse ⟨[1, 2, 3, 0], 4, 4, 3⟩ = .ok list2 ∧
      list2.len = (⟨[1, 2, 3, 0], 4, 4, 3⟩ : DA).len ∧
      list2.size = (⟨[1, 2, 3, 0], 4, 4, 3⟩ : DA).size ∧
      list2.inc = (⟨[1, 2, 3, 0], 4, 4, 3⟩ : DA).inc ∧
      elems list2 = (elems ⟨[1, 2, 3, 0], 4, 4, 3⟩).reverse ∧
      (∀ i, i < (⟨[1, 2, 3, 0], 4, 4, 3⟩ : DA).len →
        (elems list2)[(⟨[1, 2, 3, 0], 4, 4, 3⟩ : DA).len - 1 - i]? =
          (elems ⟨[1, 2, 3, 0], 4, 4, 3⟩)[i]?) ∧
      DA_reverse list2 = .ok ⟨[1, 2, 3, 0], 4, 4, 3⟩) ∧
    DA_reverse ⟨[7], 1, 1, 0⟩ = .ok ⟨[7], 1, 1, 0⟩ :=
  ⟨C11_reverse ⟨[1, 2, 3, 0], 4, 4, 3⟩ (by decide) (by decide), by decide⟩

/-- C16: on two containers whose live elements are inside their buffers,
`DA_compare` returns 1 exactly when the lengths are equal and the values agree
at every index below the length, and 0 otherwise; the result is a function of
the two sequences of live elements alone (not of the capacity, the growth
step or the slots from `len` on), and `DA_compare` is reflexive and symmetric. -/
theorem C16_compare (l1 l2 : DA) (h1 : l1.len ≤ l1.heap.length)
    (h2 : l2.len ≤ l2.heap.length) (hb1 : l1.len ≤ INT_MAX) (hb2 : l2.len ≤ INT_MAX) :
    (DA_compare l1 l2 = .ok 1 ↔
      (l1.len = l2.len ∧ ∀ i, i < l1.len → l1.heap[i]? = l2.heap[i]?)) ∧
    (¬ (l1.len = l2.len ∧ ∀ i, i < l1.len → l1.heap[i]? = l2.heap[i]?) →
      DA_compare l1 l2 = .ok 0) ∧
    (∀ m1 m2 : DA, m1.len ≤ m1.heap.length → m2.len ≤ m2.heap.length →
      elems m1 = elems l1 → elems m2 = elems l2 → DA_compare m1 m2 = DA_compare l1 l2) ∧
    DA_compare l1 l1 = .ok 1 ∧
    DA_compare l2 l1 = DA_compare l1 l2 := by
  have hc := DA_compare_ok l1 l2 h1 h2 hb1
  have hiff := elems_eq_iff l1 l2 h1 h2
  refine ⟨?_, ?_, ?_, ?_, ?_⟩
  · rw [hc, ← hiff]
    by_cases he : elems l1 = elems l2 <;> simp [he]
  · intro hn
    rw [hc, if_neg (fun he => hn (hiff.mp he))]
  · intro m1 m2 hm1 hm2 he1 he2
    have hlen : m1.len = l1.len := by
      rw [← elems_length m1 hm1, ← elems_length l1 h1, he1]
    rw [hc, DA_compare_ok m1 m2 hm1 hm2 (by omega), he1, he2]
  · rw [DA_compare_ok l1 l1 h1 h1 hb1, if_pos rfl]
  · rw [hc, DA_compare_ok l2 l1 h2 h1 hb2]
    by_cases he : elems l1 = elems l2
    · rw [if_pos he, if_pos he.symm]
    · rw [if_neg he, if_neg (fun h => he h.symm)]

/-- C16 on `[1, 2]` held with capacity 3 and growth step 3 and a stale slot, and
`[1, 2]` held with capacity 2 and growth step 1. -/
theorem C16_compare_witness :
    DA_compare ⟨[1, 2, 9], 3, 3, 2⟩ ⟨[1, 2], 2, 1, 2⟩ = .ok 1 ∧
      DA_compare ⟨[1, 2, 9], 3, 3, 2⟩ ⟨[1, 2, 9], 3, 3, 2⟩ = .ok 1 :=
  ⟨(C16_compare ⟨[1, 2, 9], 3, 3, 2⟩ ⟨[1, 2], 2, 1, 2⟩ (by decide) (by decide) (by decide)
      (by decide)).1.mpr (by decide),
   (C16_compare ⟨[1, 2, 9], 3, 3, 2⟩ ⟨[1, 2], 2, 1, 2⟩ (by decide) (by decide) (by decide)
      (by decide)).2.2.2.1⟩

/-- C17: on a container state whose buffer has `size` slots and whose fields
are within the range of `int`, one call of `DA_check` makes the capacity
`size + inc` if `len = size`, `size - inc` if `len + inc < size`, and leaves it
otherwise; the capacity moves by at most one growth step, the length, the
growth step and the live elements are unchanged, the buffer has the new
capacity, and after a shrink the capacity is still at least the length. -/
theorem C17_check (junk : Nat → Int) (list : DA) (hh : list.heap.length = list.size)
    (hs : list.size ≤ INT_MAX) (hi : list.inc ≤ INT_MAX) (hl : list.len ≤ INT_MAX) :
    (DA_check junk list).size =
      (if list.len = list.size then list.size + list.inc
        else if list.len + list.inc < list.size then list.size - list.inc
        else list.size) ∧
    (DA_check junk list).size ≤ list.size + list.inc ∧
    list.size ≤ (DA_check junk list).size + list.inc ∧
    (DA_check junk list).len = list.len ∧
    (DA_check junk list).inc = list.inc ∧
    elems (DA_check junk list) = elems list ∧
    (DA_check junk list).heap.length = (DA_check junk list).size ∧
    ((DA_check junk list).size < list.size → list.len ≤ (DA_check junk list).size) := by
  have hsz := DA_check_size junk list hs hi (by omega)
  have hlen := DA_check_len junk list
  have hhl := DA_check_heap_length junk list hh hs hi (by omega)
  have hsz2 : (DA_check junk list).size =
      (if list.len = list.size then list.size + list.inc
        else if list.len + list.inc < list.size then list.size - list.inc
        else list.size) := by
    rw [hsz]
    by_cases c : list.size = list.len
    · rw [if_pos c, if_pos c.symm]
    · have c2 : ¬ list.len = list.size := fun h => c h.symm
      rw [if_neg c, if_neg c2]
  refine ⟨hsz2, ?_, ?_, hlen, DA_check_inc junk list, ?_, hhl, ?_⟩
  · rw [hsz]; split_ifs <;> omega
  · rw [hsz]; split_ifs <;> omega
  · unfold elems
    rw [hlen]
    by_cases c : list.len ≤ list.size
    · exact DA_check_take junk list list.len hh hs hi (by omega) c
        (by rw [hsz]; split_ifs <;> omega)
    · have hid : DA_check junk list = list := by
        unfold DA_check
        rw [if_neg (by omega), if_neg]
        rw [szAdd_eq _ _ (by unfold SIZE_MOD INT_MAX at *; omega)]
        omega
      rw [hid]
  · rw [hsz]; split_ifs <;> omega

/-- C17 on a full container (growth by 3), a slack one (shrink by 3) and one in
between (no change). -/
theorem C17_check_witness :
    (DA_check (fun _ => 0) ⟨[1, 2, 3], 3, 3, 3⟩).size = 6 ∧
      (DA_check (fun _ => 0) ⟨[1, 0, 0, 0, 0, 0], 6, 3, 1⟩).size = 3 ∧
      (DA_check (fun _ => 0) ⟨[1, 2, 0], 3, 3, 2⟩).size = 3 :=
  ⟨(C17_check (fun _ => 0) ⟨[1, 2, 3], 3, 3, 3⟩ rfl (by decide) (by decide) (by decide)).1,
   (C17_check (fun _ => 0) ⟨[1, 0, 0, 0, 0, 0], 6, 3, 1⟩ rfl (by decide) (by decide)
      (by decide)).1,
   (C17_check (fun _ => 0) ⟨[1, 2, 0], 3, 3, 2⟩ rfl (by decide) (by decide) (by decide)).1⟩

/-- C12: for every well-formed source and every destination (whatever it
held), `DA_copy` returns a destination that holds the live elements of the
source in order, with the same length and with the capacity of the source, so
that `DA_compare(source, destination)` returns 1; the source is only read. -/
theorem C12_copy (junk : Nat → Int) (src dst : DA) (h : WF src) :
    ∃ dst2, DA_copy junk src dst = .ok dst2 ∧ elems dst2 = elems src ∧
      dst2.len = src.len ∧ dst2.size = src.size ∧ DA_compare src dst2 = .ok 1 := by
  obtain ⟨hh, hl, hi1, hs, hi⟩ := h
  have hcopy : DA_copy junk src dst =
      DA_extend_loop junk src (src.len + 1) (DA_init junk dst src.size) 0 := rfl
  have key : ∃ dst2, DA_copy junk src dst = .ok dst2 ∧ elems dst2 = elems src ∧
      dst2.len = src.len ∧ dst2.size = src.size ∧ dst2.len ≤ dst2.heap.length := by
    by_cases h0 : src.len = 0
    · refine ⟨DA_init junk dst src.size, ?_, ?_, ?_, rfl, ?_⟩
      · rw [hcopy]
        unfold DA_extend_loop
        have : ¬ toSizeT 0 < src.len := by rw [h0]; decide
        rw [if_neg this]; rfl
      · unfold elems; rw [h0]; rfl
      · rw [h0]; rfl
      · show 0 ≤ _; omega
    · have hwf : WF (DA_init junk dst src.size) := by
        refine ⟨?_, ?_, ?_, hs, hs⟩
        · simp [DA_init, malloc, intSlots_eq src.size (by omega)]
        · show 0 ≤ _; omega
        · show 1 ≤ src.size; omega
      obtain ⟨d2, h2, he2, hl2, hwf2, _, hs2⟩ := DA_extend_loop_ok junk src (by omega)
        (by omega) src.len (src.len + 1) (DA_init junk dst src.size) 0 hwf (by omega)
        (by omega) (Or.inl ⟨by show 0 + src.len ≤ src.size; omega,
          by show src.size ≤ 0 + src.size; omega⟩)
      refine ⟨d2, ?_, ?_, ?_, ?_, ?_⟩
      · rw [hcopy]; simpa using h2
      · rw [he2]; simp [elems, DA_init]
      · rw [hl2]; show 0 + src.len = src.len; omega
      · exact hs2 ⟨by show 0 + src.len ≤ src.size; omega,
          by show src.size ≤ 0 + src.size; omega⟩
      · obtain ⟨a, b, _⟩ := hwf2; omega
  obtain ⟨dst2, hr, he, hlen, hsz, hle⟩ := key
  refine ⟨dst2, hr, he, hlen, hsz, ?_⟩
  rw [DA_compare_ok src dst2 (by omega) hle (by omega), if_pos he.symm]

/-- C12 on the source `[3, 4]` of capacity 3 and a destination that held `[9]`. -/
theorem C12_copy_witness :
    ∃ dst2, DA_copy (fun _ => 0) ⟨[3, 4, 0], 3, 3, 2⟩ ⟨[9], 1, 1, 1⟩ = .ok dst2 ∧
      elems dst2 = elems ⟨[3, 4, 0], 3, 3, 2⟩ ∧
      dst2.len = (⟨[3, 4, 0], 3, 3, 2⟩ : DA).len ∧
      dst2.size = (⟨[3, 4, 0], 3, 3, 2⟩ : DA).size ∧
      DA_compare ⟨[3, 4, 0], 3, 3, 2⟩ dst2 = .ok 1 :=
  C12_copy (fun _ => 0) ⟨[3, 4, 0], 3, 3, 2⟩ ⟨[9], 1, 1, 1⟩ (by decide)

/-- C15: for a well-formed target and a well-formed source, the target able to
grow within the range of `int`, `DA_merge` leaves in the target its elements
followed by those of the source, in order, with the sum of the lengths (the
target that `DA_extend` alone gives), and the source with length, capacity and
growth step 0. -/
theorem C15_merge (junk : Nat → Int) (target source : DA) (ht : WF target)
    (hs : WF source) (hb : target.len + source.len + target.inc ≤ INT_MAX) :
    ∃ t s, DA_merge junk target source = .ok (t, s) ∧
      DA_extend junk target source = .ok t ∧
      elems t = elems target ++ elems source ∧ t.len = target.len + source.len ∧
      s.len = 0 ∧ s.size = 0 ∧ s.inc = 0 := by
  obtain ⟨hh, hl, _, _, _⟩ := hs
  obtain ⟨t, hr, he, hlen, _, _⟩ := DA_extend_ok junk target source ht (by omega) hb
  refine ⟨t, DA_deinit source, ?_, hr, he, hlen, rfl, rfl, rfl⟩
  unfold DA_merge
  rw [hr]; rfl

/-- C15 on `A = [1, 2]` and `B = [3, 4]`, both of capacity 2: `A` becomes
`[1, 2, 3, 4]`. -/
theorem C15_merge_witness :
    (∃ t s, DA_merge (fun _ => 0) ⟨[1, 2], 2, 2, 2⟩ ⟨[3, 4], 2, 2, 2⟩ = .ok (t, s) ∧
      DA_extend (fun _ => 0) ⟨[1, 2], 2, 2, 2⟩ ⟨[3, 4], 2, 2, 2⟩ = .ok t ∧
      elems t = elems ⟨[1, 2], 2, 2, 2⟩ ++ elems ⟨[3, 4], 2, 2, 2⟩ ∧
      t.len = (⟨[1, 2], 2, 2, 2⟩ : DA).len + (⟨[3, 4], 2, 2, 2⟩ : DA).len ∧
      s.len = 0 ∧ s.size = 0 ∧ s.inc = 0) ∧
    elems ⟨[1, 2], 2, 2, 2⟩ ++ elems ⟨[3, 4], 2, 2, 2⟩ = [1, 2, 3, 4] :=
  ⟨C15_merge (fun _ => 0) ⟨[1, 2], 2, 2, 2⟩ ⟨[3, 4], 2, 2, 2⟩ (by decide) (by decide)
    (by decide), by decide⟩

/-- C13 (holds when the source is not full or nothing moves, fails when it is
full): for a well-formed source, able to grow within the range of `int`, and
`k ≤ len`, `DA_split(source, dest, k)` followed by `DA_extend(source, dest)`
leaves the source with its original sequence, so that `DA_compare` with the
original returns 1, provided `len < size` or `k = len`; with `len = size` and
`k < len` the first `DA_delete` of `DA_split` reads `heap[len]`, one slot past
the allocation. -/
theorem C13_split_extend (junk : Nat → Int) (src dst : DA) (k : Nat) (h : WF src)
    (hk : k ≤ src.len) :
    (src.len < src.size ∨ k = src.len → src.len + src.inc ≤ INT_MAX →
      ∃ a b t, DA_split junk src dst (k : Int) = .ok (a, b) ∧
        DA_extend junk a b = .ok t ∧ elems t = elems src ∧
        DA_compare t src = .ok 1) ∧
    (src.len = src.size → k < src.len → DA_split junk src dst (k : Int) = .oob) := by
  have hwf := h
  obtain ⟨hh, hl, hi1, hs, hi⟩ := h
  have hsp : splitPoint src.len (k : Int) = k := by
    unfold splitPoint
    rw [if_neg (by omega)]
    simp
  constructor
  · intro hroom hb
    obtain ⟨a, b, hr, hea, heb, hla, hlb, hleb, hwfa, hinca⟩ :=
      DA_split_ok junk src dst (k : Int) hwf (by omega) (by omega) (by rw [hsp]; exact hroom)
    rw [hsp] at hea heb hla hlb
    obtain ⟨t, ht, het, hlt, hwft, _⟩ := DA_extend_ok junk a b hwfa hleb (by omega)
    have het2 : elems t = elems src := by
      rw [het, hea, heb, List.take_append_drop]
    refine ⟨a, b, t, hr, ht, het2, ?_⟩
    obtain ⟨hth, htl, _, hts, _⟩ := hwft
    rw [DA_compare_ok t src (by omega) (by omega) (by omega), if_pos het2]
  · intro hfull hlt
    exact DA_split_full_oob junk src dst k hwf hfull hlt

/-- C13 at the full container `[1, 2]` of capacity 2 (`DA_init(2)`, two appends)
and `k = 1`: `DA_split` reads `heap[2]` of the two-slot buffer. -/
theorem C13_split_extend_witness :
    WF ⟨[1, 2], 2, 2, 2⟩ ∧ 1 ≤ (⟨[1, 2], 2, 2, 2⟩ : DA).len ∧
      (⟨[1, 2], 2, 2, 2⟩ : DA).len = (⟨[1, 2], 2, 2, 2⟩ : DA).size ∧
      DA_split (fun _ => 0) ⟨[1, 2], 2, 2, 2⟩ ⟨[], 0, 0, 0⟩ ((1 : Nat) : Int) = .oob :=
  ⟨by decide, by decide, rfl,
    (C13_split_extend (fun _ => 0) ⟨[1, 2], 2, 2, 2⟩ ⟨[], 0, 0, 0⟩ 1 (by decide)
      (by decide)).2 rfl (by decide)⟩

/-- C14, the claim fails at a negative index: on the source `[1, 2]` of
capacity 3, `DA_split` with index -1 leaves the source `[1, 2]` and the
destination empty (the index acts as `len`), where the claim says the index acts
as 0, that is the source empty and the destination `[1, 2]`. -/
theorem C14_split_negative_counterexample :
    DA_split (fun _ => 0) ⟨[1, 2, 0], 3, 3, 2⟩ ⟨[], 0, 0, 0⟩ (-1) =
        .ok (⟨[1, 2, 0], 3, 3, 2⟩, ⟨[], 0, 0, 0⟩) ∧
      elems ⟨[1, 2, 0], 3, 3, 2⟩ ≠ (elems ⟨[1, 2, 0], 3, 3, 2⟩).take 0 ∧
      elems ⟨[], 0, 0, 0⟩ ≠ (elems ⟨[1, 2, 0], 3, 3, 2⟩).drop 0 := by
  decide

/-- C14 as amended: for a well-formed source with live elements `xs` of length
`n` and an index in the range of `int`, `DA_split` cuts at `c`, where `c = n`
when the index is above `n` or negative and `c` is the index otherwise; when
the source is not full or `c = n`, the source then holds `xs[0..c)` and the
destination `xs[c..n)` in order, the destination of length `n - c`, whatever the
destination held. -/
theorem C14_split (junk : Nat → Int) (l1 l2 : DA) (index : Int) (hwf : WF l1)
    (hlo : -(INT_MAX : Int) - 1 ≤ index) (hhi : index ≤ (INT_MAX : Int))
    (hroom : l1.len < l1.size ∨ splitPoint l1.len index = l1.len) :
    (index < 0 ∨ (l1.len : Int) < index → splitPoint l1.len index = l1.len) ∧
    (0 ≤ index → index ≤ (l1.len : Int) → splitPoint l1.len index = index.toNat) ∧
    ∃ a b, DA_split junk l1 l2 index = .ok (a, b) ∧
      elems a = (elems l1).take (splitPoint l1.len index) ∧
      elems b = (elems l1).drop (splitPoint l1.len index) ∧
      a.len = splitPoint l1.len index ∧ b.len = l1.len - splitPoint l1.len index := by
  refine ⟨?_, ?_, ?_⟩
  · intro hc
    unfold splitPoint
    rw [if_pos hc]
  · intro h0 h1
    unfold splitPoint
    rw [if_neg (by omega)]
  · obtain ⟨a, b, hr, hea, heb, hla, hlb, _⟩ := DA_split_ok junk l1 l2 index hwf hlo hhi hroom
    exact ⟨a, b, hr, hea, heb, hla, hlb⟩

/-- C14 as amended, on the source `[1, 2]` of capacity 3 and the index -1. -/
theorem C14_split_witness :
    ((-1 : Int) < 0 ∨ ((⟨[1, 2, 0], 3, 3, 2⟩ : DA).len : Int) < -1 →
      splitPoint (⟨[1, 2, 0], 3, 3, 2⟩ : DA).len (-1) = (⟨[1, 2, 0], 3, 3, 2⟩ : DA).len) ∧
    ((0 : Int) ≤ -1 → (-1 : Int) ≤ ((⟨[1, 2, 0], 3, 3, 2⟩ : DA).len : Int) →
      splitPoint (⟨[1, 2, 0], 3, 3, 2⟩ : DA).len (-1) = (-1 : Int).toNat) ∧
    ∃ a b, DA_split (fun _ => 0) ⟨[1, 2, 0], 3, 3, 2⟩ ⟨[9], 1, 1, 1⟩ (-1) = .ok (a, b) ∧
      elems a = (elems ⟨[1, 2, 0], 3, 3, 2⟩).take
        (splitPoint (⟨[1, 2, 0], 3, 3, 2⟩ : DA).len (-1)) ∧
      elems b = (elems ⟨[1, 2, 0], 3, 3, 2⟩).drop
        (splitPoint (⟨[1, 2, 0], 3, 3, 2⟩ : DA).len (-1)) ∧
      a.len = splitPoint (⟨[1, 2, 0], 3, 3, 2⟩ : DA).len (-1) ∧
      b.len = (⟨[1, 2, 0], 3, 3, 2⟩ : DA).len -
        splitPoint (⟨[1, 2, 0], 3, 3, 2⟩ : DA).len (-1) :=
  C14_split (fun _ => 0) ⟨[1, 2, 0], 3, 3, 2⟩ ⟨[9], 1, 1, 1⟩ (-1) (by decide) (by decide)
    (by decide) (by decide)

/-- C18 (the code breaks the invariant): from `DA_init(1)`, the call
`DA_delete(0)` on the still empty container is accepted and leaves
`len = 2^64 - 1` with `size = 0`, a reachable state with `len > size`; and the
calls `DA_append(5)`, `DA_insert(0, 7)` make `DA_insert` write outside the
one-slot buffer. -/
theorem C18_invariant_broken (junk : Nat → Int) (l0 : DA) :
    (∃ list, runOps junk (DA_init junk l0 1) [Op.delete 0] = .ok list ∧
      ¬ list.len ≤ list.size) ∧
    runOps junk (DA_init junk l0 1) [Op.append 5, Op.insert 0 7] = .oob := by
  obtain ⟨list, hr, hlen, hsz⟩ := runOps_delete_empty junk l0
  refine ⟨⟨list, hr, ?_⟩, runOps_insert_full junk l0⟩
  rw [hlen, hsz]
  omega

/-- C20 (holds for one element or more, fails for none): on a container of
length at least 1 whose live elements are inside the buffer, the loop of
`DA_sort` returns within `sortFuel len` iterations; it also returns on the
buffer cut down to the `len` live slots, where any access outside `[0, len)`
would be a fault, and the run on the whole buffer is that run with the other
slots carried along: `heap[i]` and `heap[i-1]` are only read with
`1 ≤ i ≤ len-1`.  On a container of length 0 the test `i > len-1` is made
against `2^64 - 1` and the loop never returns. -/
theorem C20_sort_terminates (list : DA) (fuel : Nat) (hl : list.len ≤ list.heap.length)
    (hb : list.len ≤ INT_MAX) :
    (1 ≤ list.len → sortFuel list.len ≤ fuel →
      ∃ live, DA_sort fuel { list with heap := list.heap.take list.len } =
          .ok { list with heap := live } ∧
        DA_sort fuel list = .ok { list with heap := live ++ list.heap.drop list.len }) ∧
    (list.len = 0 → ∀ list2, DA_sort fuel list ≠ .ok list2) := by
  constructor
  · intro h1 hf
    have hlen : (list.heap.take list.len).length = list.len := by simp; omega
    obtain ⟨live, hr, _⟩ := DA_sort_ok { list with heap := list.heap.take list.len } fuel h1
      (show list.len ≤ (list.heap.take list.len).length by omega) hb hf
    refine ⟨live, hr, ?_⟩
    unfold DA_sort at hr ⊢
    cases hloop : DA_sort_loop list.len fuel (list.heap.take list.len) 1 false with
    | ok h2 =>
      have hloop2 : DA_sort_loop { list with heap := list.heap.take list.len }.len fuel
          { list with heap := list.heap.take list.len }.heap 1 false = .ok h2 := hloop
      rw [hloop2] at hr
      simp only [Run.ok_bind, Run.pure_eq, Run.ok.injEq, DA.mk.injEq, and_true, true_and] at hr
      have := DA_sort_loop_append list.len (list.heap.drop list.len) fuel _ 1 false h2 hloop
      rw [List.take_append_drop] at this
      rw [this, hr]
      rfl
    | oob =>
      have hloop2 : DA_sort_loop { list with heap := list.heap.take list.len }.len fuel
          { list with heap := list.heap.take list.len }.heap 1 false = .oob := hloop
      rw [hloop2] at hr; simp at hr
    | fuel =>
      have hloop2 : DA_sort_loop { list with heap := list.heap.take list.len }.len fuel
          { list with heap := list.heap.take list.len }.heap 1 false = .fuel := hloop
      rw [hloop2] at hr; simp at hr
  · intro h0 list2 hr
    unfold DA_sort at hr
    rw [h0] at hr
    cases hloop : DA_sort_loop 0 fuel list.heap 1 false with
    | ok heap2 => exact DA_sort_loop_empty fuel list.heap 1 false heap2 hloop
    | oob => rw [hloop] at hr; simp at hr
    | fuel => rw [hloop] at hr; simp at hr

/-- C20 at the empty container `DA_init(5)` (the one `DA_qinit` makes): the
loop of `DA_sort` does not return within 1000 iterations, nor within any other
number. -/
theorem C20_sort_terminates_witness :
    (DA_init (fun _ => 0) ⟨[], 0, 0, 0⟩ 5).len = 0 ∧
      ∀ list2, DA_sort 1000 (DA_init (fun _ => 0) ⟨[], 0, 0, 0⟩ 5) ≠ .ok list2 :=
  ⟨rfl, (C20_sort_terminates (DA_init (fun _ => 0) ⟨[], 0, 0, 0⟩ 5) 1000 (by decide)
    (by decide)).2 rfl⟩

/-- C19: whatever the fresh slots hold, starting from `DA_init(3)`, appending
1, 2, 3, 4, 5 gives length 5 and capacity 6; then `DA_insert(2, 99)` gives
`[1, 2, 99, 3, 4, 5]`; then `DA_delete(0)` gives `[2, 99, 3, 4, 5]`; then
`DA_sort` (with `sortFuel 5` iterations or more) gives `[2, 3, 4, 5, 99]`; then
`DA_reverse` gives `[99, 5, 4, 3, 2]`. -/
theorem C19_scenario (junk : Nat → Int) (l0 : DA) (fuel : Nat) (hf : sortFuel 5 ≤ fuel) :
    ∃ a b c d e : DA,
      appendAll junk (DA_init junk l0 3) [1, 2, 3, 4, 5] = .ok (a, [0, 1, 2, 3, 4]) ∧
      a.len = 5 ∧ a.size = 6 ∧ elems a = [1, 2, 3, 4, 5] ∧
      DA_insert junk a 2 99 = .ok (b, 0) ∧ elems b = [1, 2, 99, 3, 4, 5] ∧
      DA_delete junk b 0 = .ok (c, 0) ∧ elems c = [2, 99, 3, 4, 5] ∧
      DA_sort fuel c = .ok d ∧ elems d = [2, 3, 4, 5, 99] ∧
      DA_reverse d = .ok e ∧ elems e = [99, 5, 4, 3, 2] := by
  have hmax : INT_MAX = 2147483647 := rfl
  -- the five appends
  have hwf0 : WF (DA_init junk l0 3) := DA_init_WF junk l0 3 (by omega) (by rw [hmax]; omega)
  obtain ⟨a, ha, hea, hla, hwfa, hia, hda, hsa⟩ :=
    appendAll_shape junk 3 [1, 2, 3, 4, 5] (DA_init junk l0 3) hwf0 rfl
      (show (3 : Nat) ∣ 3 from Nat.dvd_refl 3) (show 3 ≤ 0 + 3 by omega)
      (show 0 + 5 + 3 ≤ INT_MAX + 1 by rw [hmax]; omega)
  have ha2 : appendAll junk (DA_init junk l0 3) [1, 2, 3, 4, 5] = .ok (a, [0, 1, 2, 3, 4]) := ha
  have hla2 : a.len = 5 := hla
  have hea2 : elems a = [1, 2, 3, 4, 5] := by rw [hea]; rfl
  have hsa2 : a.size = 6 := by
    obtain ⟨_, hle, _⟩ := hwfa
    obtain ⟨t, ht⟩ := hda
    omega
  -- the insert
  obtain ⟨b, hb, hlb, hleb, heb⟩ := DA_insert_ok junk a 2 99 hwfa (by omega) (by omega)
  have hb2 : DA_insert junk a 2 99 = .ok (b, 0) := hb
  have heb2 : elems b = [1, 2, 99, 3, 4, 5] := by rw [heb, hea2]; rfl
  have h62 : szAdd 5 1 = 6 := by decide
  have hacc : ¬ DA_outofbounds a 2 = true := by
    have h2 : toSizeT 2 = 2 := by decide
    unfold DA_outofbounds
    rw [h2, hla2]
    decide
  obtain ⟨hbs, hbi, hbh⟩ := DA_insert_fields junk a 2 99 b 0 hacc hb2
  obtain ⟨hah, hal, _, has, hai⟩ := hwfa
  have hcs := DA_check_size junk { a with len := szAdd a.len 1 } has hai
    (show szAdd a.len 1 ≤ INT_MAX + 1 by rw [hla2, h62, hmax]; omega)
  have hch := DA_check_heap_length junk { a with len := szAdd a.len 1 } hah has hai
    (show szAdd a.len 1 ≤ INT_MAX + 1 by rw [hla2, h62, hmax]; omega)
  have hcs2 : (DA_check junk { a with len := szAdd a.len 1 }).size = 9 := by
    rw [hcs]
    show (if a.size = szAdd a.len 1 then a.size + a.inc
      else if szAdd a.len 1 + a.inc < a.size then a.size - a.inc else a.size) = 9
    rw [hla2, h62, hsa2, hia]
    simp
  have hbs2 : b.size = 9 := by rw [hbs, hcs2]
  have hbh2 : b.heap.length = 9 := by rw [hbh, hch, hcs2]
  have hwfb : WF b := ⟨by omega, by omega, by omega, by rw [hmax]; omega, by rw [hmax]; omega⟩
  -- the delete
  obtain ⟨c, hc, hlc, hwfc, _, hec⟩ := DA_delete_ok junk b 0 hwfb (by omega) (by omega)
  have hc2 : DA_delete junk b 0 = .ok (c, 0) := hc
  have hec2 : elems c = [2, 99, 3, 4, 5] := by rw [hec, heb2]; rfl
  have hlc2 : c.len = 5 := by omega
  obtain ⟨hchh, hcl, _, hcsz, _⟩ := hwfc
  -- the sort
  obtain ⟨heap2, hd, hl2, hsd, hpd⟩ := DA_sort_ok c fuel (by omega) (by omega) (by omega)
    (by rw [hlc2]; exact hf)
  have hed : elems { c with heap := heap2 } = [2, 3, 4, 5, 99] := by
    have hp : List.Perm (heap2.take c.len) [2, 3, 4, 5, 99] := by
      rw [hec2] at hpd
      exact hpd.trans (by decide)
    exact List.eq_of_perm_of_sorted hp hsd (by decide)
  -- the reverse
  obtain ⟨heap3, he, hl3, hte, _⟩ := DA_reverse_ok { c with heap := heap2 }
    (show c.len ≤ heap2.length by omega) (show c.len ≤ INT_MAX by omega)
  have hee : elems { c with heap := heap3 } = [99, 5, 4, 3, 2] := by
    show heap3.take c.len = _
    have : heap3.take c.len = (heap2.take c.len).reverse := hte
    have hed2 : heap2.take c.len = [2, 3, 4, 5, 99] := hed
    rw [this, hed2]
    rfl
  exact ⟨a, b, c, { c with heap := heap2 }, { c with heap := heap3 }, ha2, hla2, hsa2, hea2,
    hb2, heb2, hc2, hec2, hd, hed, he, hee⟩

/-- C19 with every fresh slot 0 and `sortFuel 5` iterations for the sort. -/
theorem C19_scenario_witness :
    ∃ a b c d e : DA,
      appendAll (fun _ => 0) (DA_init (fun _ => 0) ⟨[], 0, 0, 0⟩ 3) [1, 2, 3, 4, 5] =
        .ok (a, [0, 1, 2, 3, 4]) ∧
      a.len = 5 ∧ a.size = 6 ∧ elems a = [1, 2, 3, 4, 5] ∧
      DA_insert (fun _ => 0) a 2 99 = .ok (b, 0) ∧ elems b = [1, 2, 99, 3, 4, 5] ∧
      DA_delete (fun _ => 0) b 0 = .ok (c, 0) ∧ elems c = [2, 99, 3, 4, 5] ∧
      DA_sort (sortFuel 5) c = .ok d ∧ elems d = [2, 3, 4, 5, 99] ∧
      DA_reverse d = .ok e ∧ elems e = [99, 5, 4, 3, 2] :=
  C19_scenario (fun _ => 0) ⟨[], 0, 0, 0⟩ (sortFuel 5) (Nat.le_refl _)

/-- C19, the run with every fresh slot 0, state by state. -/
theorem C19_scenario_run :
    appendAll (fun _ => 0) (DA_init (fun _ => 0) ⟨[], 0, 0, 0⟩ 3) [1, 2, 3, 4, 5] =
        .ok (⟨[1, 2, 3, 4, 5, 0], 6, 3, 5⟩, [0, 1, 2, 3, 4]) ∧
      DA_insert (fun _ => 0) ⟨[1, 2, 3, 4, 5, 0], 6, 3, 5⟩ 2 99 =
        .ok (⟨[1, 2, 99, 3, 4, 5, 0, 0, 0], 9, 3, 6⟩, 0) ∧
      DA_delete (fun _ => 0) ⟨[1, 2, 99, 3, 4, 5, 0, 0, 0], 9, 3, 6⟩ 0 =
        .ok (⟨[2, 99, 3, 4, 5, 0], 6, 3, 5⟩, 0) ∧
      DA_sort 12 ⟨[2, 99, 3, 4, 5, 0], 6, 3, 5⟩ = .ok ⟨[2, 3, 4, 5, 99, 0], 6, 3, 5⟩ ∧
      DA_reverse ⟨[2, 3, 4, 5, 99, 0], 6, 3, 5⟩ = .ok ⟨[99, 5, 4, 3, 2, 0], 6, 3, 5⟩ := by
  decide
